import Mathlib

set_option linter.unusedVariables false

/-!
Verification of the binary-heap core of `collections-js`
(`src/collections/heap.class.ts`).

The TypeScript source is shallowly embedded: the mutable backing array of a
heap becomes a `List T` that is threaded through every operation, JavaScript
`number` indices/comparator results become `Nat`/`Int`, and `T | undefined`
return types become `Option T`.  The `while` loops of `_siftDown` and
`_siftUp` are embedded with an explicit fuel parameter; every call site
passes fuel that dominates the loop's iteration count (the sift-down index
strictly increases towards `length`, the sift-up index strictly decreases
towards 0), so the fuel never runs out on the calls the library performs.

Out-of-range JavaScript array reads (which would produce `undefined`) are
modelled with `List.getD _ _ default`; the embedded code only ever reads
in range, which the lemmas below make precise.
-/

namespace HeapVer

/-- The comparator contract assumed by the spec (§3 "Comparator"): a
JavaScript-style three-way comparator `cmp : T → T → Int` inducing a total
preorder.  `flip` says the function is sign-antisymmetric, `le_trans` that
the induced non-strict relation `cmp a b ≤ 0` is transitive. -/
structure IsCmpPreorder {T : Type _} (cmp : T → T → Int) : Prop where
  flip : ∀ a b, cmp a b < 0 ↔ 0 < cmp b a
  le_trans : ∀ a b c, cmp a b ≤ 0 → cmp b c ≤ 0 → cmp a c ≤ 0

variable {T : Type _}

/-- JavaScript array read `l[i]`: in-range value, or `undefined` (modelled
by `default`) out of range.  The embedded library only reads in range. -/
def getAt [Inhabited T] (l : List T) (i : Nat) : T :=
  l.getD i default

/-- Loop body of `_siftDown` (heap.class.ts:30-51).  `item` is the value
saved from `heap[index]` on entry; the source's swap
`heap[index] = heap[smallestIndex]; heap[smallestIndex] = item` relies on
`heap[index] = item` holding at the top of every iteration. -/
def siftDownLoop [Inhabited T] (cmp : T → T → Int) :
    Nat → List T → T → Nat → Nat → List T
  | 0, heap, _, _, _ => heap
  | fuel + 1, heap, item, index, length =>
    if index < length then
      let left := 2 * index + 1
      let right := left + 1
      let s1 := if left < length ∧ cmp (getAt heap left) (getAt heap index) < 0 then
        left else index
      let s2 := if right < length ∧ cmp (getAt heap right) (getAt heap s1) < 0 then
        right else s1
      if s2 = index then heap
      else siftDownLoop cmp fuel ((heap.set index (getAt heap s2)).set s2 item) item s2 length
    else heap

/-- `_siftDown(heap, index, length, comparator)` (heap.class.ts:30-51). -/
def _siftDown [Inhabited T] (cmp : T → T → Int) (heap : List T) (index length : Nat) :
    List T :=
  siftDownLoop cmp length heap (getAt heap index) index length

/-- Loop of `_siftUp` plus the trailing `heap[index] = item`
(heap.class.ts:57-66). -/
def siftUpAux [Inhabited T] (cmp : T → T → Int) :
    Nat → List T → T → Nat → List T
  | 0, heap, _, _ => heap
  | fuel + 1, heap, item, index =>
    if 0 < index then
      let parentIndex := (index - 1) / 2
      if 0 ≤ cmp item (getAt heap parentIndex) then heap.set index item
      else siftUpAux cmp fuel (heap.set index (getAt heap parentIndex)) item parentIndex
    else heap.set index item

/-- `_siftUp(heap, index, comparator)` (heap.class.ts:57-66). -/
def _siftUp [Inhabited T] (cmp : T → T → Int) (heap : List T) (index : Nat) : List T :=
  siftUpAux cmp (index + 1) heap (getAt heap index) index

/-- Descending `for` loop of `_heapify` (heap.class.ts:73-77): `count` is
the number of iterations left; iteration with counter `k+1` processes
index `k`. -/
def heapifyFrom [Inhabited T] (cmp : T → T → Int) : Nat → List T → List T
  | 0, heap => heap
  | k + 1, heap => heapifyFrom cmp k (_siftDown cmp heap k heap.length)

/-- `_heapify(items, comparator)` (heap.class.ts:73-77): sift down every
internal node from `floor(n/2)-1` down to `0`. -/
def _heapify [Inhabited T] (cmp : T → T → Int) (items : List T) : List T :=
  heapifyFrom cmp (items.length / 2) items

/-- `_replace(heap, item, comparator)` (heap.class.ts:14-24).  Note the
unconditional `heap[0] = item`: on an empty JavaScript array this append
grows the array to `[item]`. -/
def _replace [Inhabited T] (cmp : T → T → Int) (heap : List T) (item : T) :
    Option T × List T :=
  let returnitem : Option T := match heap with
    | [] => none
    | _ => some (getAt heap 0)
  let heap1 : List T := match heap with
    | [] => [item]
    | _ => heap.set 0 item
  (returnitem, _siftDown cmp heap1 0 heap1.length)

namespace Heap

/-- `Heap.push` (heap.class.ts:221-225): append, then sift up from the last
index. -/
def push [Inhabited T] (cmp : T → T → Int) (data : List T) (item : T) : List T :=
  let d1 := data ++ [item]
  _siftUp cmp d1 (d1.length - 1)

/-- `Heap.pop` (heap.class.ts:227-239): save the root, move the last element
to the root and sift down. -/
def pop [Inhabited T] (cmp : T → T → Int) (data : List T) : Option T × List T :=
  match data with
  | [] => (none, [])
  | x :: xs =>
    let root := getAt (x :: xs) 0
    let last := (x :: xs).getLastD default
    let rest := (x :: xs).dropLast
    if rest.isEmpty then (some root, rest)
    else (some root, _siftDown cmp (rest.set 0 last) 0 rest.length)

/-- `Heap.peek` (heap.class.ts:246-249); the index is a JavaScript number
and may be negative, so it is modelled as an `Int`. -/
def peek [Inhabited T] (data : List T) (index : Int) : Option T :=
  if index < 0 ∨ (data.length : Int) ≤ index then none
  else some (getAt data index.toNat)

/-- `Heap.replace` (heap.class.ts:251-253): delegates to `_replace`. -/
def replace [Inhabited T] (cmp : T → T → Int) (data : List T) (item : T) :
    Option T × List T :=
  _replace cmp data item

/-- `Heap.pushPop` (heap.class.ts:255-264).  The declared return type is
`T | undefined`, modelled as `Option T`; the implementation always returns
a value. -/
def pushPop [Inhabited T] (cmp : T → T → Int) (data : List T) (item : T) :
    Option T × List T :=
  if data.isEmpty ∨ cmp item (getAt data 0) < 0 then (some item, data)
  else (some (getAt data 0), _siftDown cmp (data.set 0 item) 0 data.length)

/-- `Heap.heapify(items?)` (heap.class.ts:266-272): optionally append, then
re-heapify the whole backing array. -/
def heapifyMeth [Inhabited T] (cmp : T → T → Int) (data : List T)
    (items : Option (List T)) : List T :=
  _heapify cmp (match items with
    | some it => data ++ it
    | none => data)

end Heap

/-- Lexicographic order on index-annotated elements: by comparator first,
by original index on ties. -/
def lexLe (cmp : T → T → Int) (a b : Nat × T) : Bool :=
  decide (cmp a.2 b.2 < 0 ∨ (cmp a.2 b.2 = 0 ∧ a.1 ≤ b.1))

/-- Modelled from the spec: JavaScript `Array.prototype.sort(comparator)`, a
host function that is not part of `src/`.  Per ECMAScript (and the spec's
§4.2 `sort()` contract) it returns a stable permutation of the array that is
sorted consistently with the comparator.  We take the canonical stable sort:
merge sort of the index-annotated list, ties broken by original index. -/
def jsSort (cmp : T → T → Int) (l : List T) : List T :=
  ((l.enum).mergeSort (lexLe cmp)).map (fun p => p.2)

/-- The working-heap comparator of `_nsmallest`/`_nlargest`
(heap.class.ts:120,178): `comparator(a[0], b[0]) || a[1] - b[1]` — the
JavaScript `||` falls through to the index difference exactly when the
comparator returns `0`. -/
def heapCmp (cmp : T → T → Int) (a b : T × Nat) : Int :=
  let c := cmp a.1 b.1
  if c = 0 then (a.2 : Int) - (b.2 : Int) else c

/-- The `while (true)` scan of `_nsmallest` (heap.class.ts:125-133) over the
elements remaining after seeding: a strictly smaller element evicts the
current worst held candidate via `_replace` on the negated pair comparator,
and the synthetic index `i` advances only on acceptance. -/
def nsmallestScan [Inhabited T] (cmp : T → T → Int) :
    List T → List (T × Nat) → T → Nat → List (T × Nat)
  | [], result, _, _ => result
  | v :: rem, result, top, i =>
    if cmp v top < 0 then
      let result1 := (_replace (fun a b => -(heapCmp cmp a b)) result (v, i)).2
      nsmallestScan cmp rem result1 (getAt result1 0).1 (i + 1)
    else nsmallestScan cmp rem result top i

/-- `_nsmallest(n, iterable, comparator)` (heap.class.ts:86-137) for a
finite array input (for arrays `len(iterable)` is always the length, so the
`n >= length` branch is exact).  `n` is a JavaScript number, modelled as an
`Int`. -/
def _nsmallest [Inhabited T] (n : Int) (iterable : List T) (cmp : T → T → Int) :
    List T :=
  if n ≤ 0 then []
  else if (iterable.length : Int) ≤ n then (jsSort cmp iterable).take n.toNat
  else if n = 1 then
    match iterable with
    | [] => []
    | v :: rest => [rest.foldl (fun minv nx => if cmp nx minv < 0 then nx else minv) v]
  else
    let k := n.toNat
    let seed := (iterable.take k).enum.map (fun p => (p.2, p.1))
    if seed.length = 0 then []
    else
      let result := _heapify (fun a b => -(heapCmp cmp a b)) seed
      let top := (getAt result 0).1
      let final := nsmallestScan cmp (iterable.drop k) result top k
      (jsSort (heapCmp cmp) final).map (fun p => p.1)

/-- The `while (true)` scan of `_nlargest` (heap.class.ts:183-191): a
strictly larger element evicts the current worst held candidate via
`_replace` on the (un-negated) pair comparator. -/
def nlargestScan [Inhabited T] (cmp : T → T → Int) :
    List T → List (T × Nat) → T → Nat → List (T × Nat)
  | [], result, _, _ => result
  | v :: rem, result, top, i =>
    if 0 < cmp v top then
      let result1 := (_replace (heapCmp cmp) result (v, i)).2
      nlargestScan cmp rem result1 (getAt result1 0).1 (i + 1)
    else nlargestScan cmp rem result top i

/-- `_nlargest(n, iterable, comparator)` (heap.class.ts:143-195) for a
finite array input. -/
def _nlargest [Inhabited T] (n : Int) (iterable : List T) (cmp : T → T → Int) :
    List T :=
  if n ≤ 0 then []
  else if (iterable.length : Int) ≤ n then
    (jsSort (fun a b => -(cmp a b)) iterable).take n.toNat
  else if n = 1 then
    match iterable with
    | [] => []
    | v :: rest => [rest.foldl (fun maxv nx => if 0 < cmp nx maxv then nx else maxv) v]
  else
    let k := n.toNat
    let seed := (iterable.take k).enum.map (fun p => (p.2, p.1))
    if seed.length = 0 then []
    else
      let result := _heapify (heapCmp cmp) seed
      let top := (getAt result 0).1
      let final := nlargestScan cmp (iterable.drop k) result top k
      (jsSort (fun a b => -(heapCmp cmp a b)) final).map (fun p => p.1)

namespace Heap

/-- `Heap.sort` (heap.class.ts:274-276): `[...this._data].sort(cmp)` sorts a
spread copy; the body performs no write to `this._data`, so the state
component of the embedding is returned unchanged. -/
def sortMeth [Inhabited T] (cmp : T → T → Int) (data : List T) :
    List T × List T :=
  (jsSort cmp data, data)

/-- `Heap.nsmallest` (heap.class.ts:278-280): passes `this._data` to
`_nsmallest`, which only reads its input (its writes target the fresh
`result`/`arr` arrays), so the state is unchanged. -/
def nsmallestMeth [Inhabited T] (cmp : T → T → Int) (data : List T) (n : Int) :
    List T × List T :=
  (_nsmallest n data cmp, data)

/-- `Heap.nlargest` (heap.class.ts:282-284). -/
def nlargestMeth [Inhabited T] (cmp : T → T → Int) (data : List T) (n : Int) :
    List T × List T :=
  (_nlargest n data cmp, data)

end Heap

namespace Heapq

/-- `HeapqStatic.heapPush` (heap.class.ts:345-348). -/
def heapPush [Inhabited T] (cmp : T → T → Int) (arr : List T) (item : T) : List T :=
  let a1 := arr ++ [item]
  _siftUp cmp a1 (a1.length - 1)

/-- `HeapqStatic.heapPop` (heap.class.ts:349-362): note `returnitem` is read
from `arr[0]` after the last element has been popped off but before it is
moved to the root. -/
def heapPop [Inhabited T] (cmp : T → T → Int) (arr : List T) : Option T × List T :=
  match arr with
  | [] => (none, arr)
  | x :: xs =>
    let last := (x :: xs).getLastD default
    let rest := (x :: xs).dropLast
    if 0 < rest.length then
      (some (getAt rest 0), _siftDown cmp (rest.set 0 last) 0 rest.length)
    else (some last, rest)

/-- `HeapqStatic.heapPushPop` (heap.class.ts:364-372): installs `item` only
when the root compares strictly *less than* `item` — the mirror image of the
instance method's test. -/
def heapPushPop [Inhabited T] (cmp : T → T → Int) (arr : List T) (item : T) :
    Option T × List T :=
  if 0 < arr.length ∧ cmp (getAt arr 0) item < 0 then
    (some (getAt arr 0), _siftDown cmp (arr.set 0 item) 0 arr.length)
  else (some item, arr)

/-- `HeapqStatic.heapReplace` (heap.class.ts:374-376). -/
def heapReplace [Inhabited T] (cmp : T → T → Int) (arr : List T) (item : T) :
    Option T × List T :=
  _replace cmp arr item

/-- `HeapqStatic.nsmallest` with a key projection (heap.class.ts:378-381):
the comparator is `(a, b) => key(a) - key(b)`. -/
def nsmallestKey [Inhabited T] (n : Int) (iterable : List T) (key : T → Int) :
    List T :=
  _nsmallest n iterable (fun a b => key a - key b)

/-- `HeapqStatic.nlargest` with a key projection (heap.class.ts:383-386). -/
def nlargestKey [Inhabited T] (n : Int) (iterable : List T) (key : T → Int) :
    List T :=
  _nlargest n iterable (fun a b => key a - key b)

end Heapq

/-- Repeatedly pop until empty, fuel-indexed (each successful pop shortens
the backing array by one, so `data.length` fuel suffices). -/
def popAllF [Inhabited T] (cmp : T → T → Int) : Nat → List T → List T
  | 0, _ => []
  | fuel + 1, data =>
    match Heap.pop cmp data with
    | (none, _) => []
    | (some r, data1) => r :: popAllF cmp fuel data1

/-- Drain a heap by repeated `pop` calls until it reports empty. -/
def popAll [Inhabited T] (cmp : T → T → Int) (data : List T) : List T :=
  popAllF cmp data.length data

/-- One public mutating operation of the `Heap` instance (claim C2's
alphabet). -/
inductive HeapOp (T : Type _) where
  | push (item : T)
  | pop
  | replace (item : T)
  | pushPop (item : T)
  | heapify (items : Option (List T))

/-- Run one operation, keeping only the backing-array state. -/
def stepOp [Inhabited T] (cmp : T → T → Int) (data : List T) :
    HeapOp T → List T
  | .push item => Heap.push cmp data item
  | .pop => (Heap.pop cmp data).2
  | .replace item => (Heap.replace cmp data item).2
  | .pushPop item => (Heap.pushPop cmp data item).2
  | .heapify items => Heap.heapifyMeth cmp data items

/-- Run a sequence of public mutating operations. -/
def execOps [Inhabited T] (cmp : T → T → Int) (data : List T) :
    List (HeapOp T) → List T
  | [] => data
  | op :: ops => execOps cmp (stepOp cmp data op) ops

/-- Parent-to-child step in the implicit binary tree of array indices. -/
def childStep (a b : Nat) : Prop :=
  b = 2 * a + 1 ∨ b = 2 * a + 2

/-- `Descend a b`: index `b` lies strictly inside the subtree rooted at
index `a`. -/
def Descend : Nat → Nat → Prop :=
  Relation.TransGen childStep

/-- The natural three-way comparator on integers, used to instantiate the
generic theorems in witnesses (it plays the role of the library's
`defaultComparator` on numbers). -/
def intCmp (a b : Int) : Int :=
  a - b

/-- Comparator on integer pairs that inspects only the first component:
a comparator with equal-comparing but distinguishable elements. -/
def fstCmp (a b : Int × Int) : Int :=
  a.1 - b.1

/-- The binary-heap invariant (spec §3): every parent is `≤` both of its
in-range children under the comparator. -/
def Inv [Inhabited T] (cmp : T → T → Int) (l : List T) : Prop :=
  ∀ p j, j < l.length → (j = 2 * p + 1 ∨ j = 2 * p + 2) →
    cmp (getAt l p) (getAt l j) ≤ 0

/-- The heap invariant restricted to parents `≥ k` — the loop invariant of
bottom-up `_heapify`.  `InvFrom cmp l 0` is the full invariant. -/
def InvFrom [Inhabited T] (cmp : T → T → Int) (l : List T) (k : Nat) : Prop :=
  ∀ p j, k ≤ p → j < l.length → (j = 2 * p + 1 ∨ j = 2 * p + 2) →
    cmp (getAt l p) (getAt l j) ≤ 0

/-- Stability (spec §4.3): the output reads off a list of positions of the
input, without repetition, such that among comparator-equal elements the
positions appear in increasing order — earlier-occurring equal elements
precede later-occurring ones. -/
def StableOutput [Inhabited T] (cmp : T → T → Int) (l out : List T) : Prop :=
  ∃ ps : List Nat,
    out = ps.map (fun p => getAt l p) ∧
    (∀ p ∈ ps, p < l.length) ∧
    ps.Nodup ∧
    List.Pairwise (fun p q => cmp (getAt l p) (getAt l q) = 0 → p < q) ps

/-- Invariant of the bounded-heap scan of `_nsmallest`/`_nlargest`, with a
ghost assignment `f` from synthetic tags to original positions: every held
pair's tag is below the tag counter `i` and its value is the input element
at its assigned position; assigned positions are below the scan position
`p` and in range; the assignment is strictly monotone on tags; and held
tags are pairwise distinct. -/
def ScanInv [Inhabited T] (l : List T) (f : Nat → Nat) (result : List (T × Nat))
    (i p : Nat) : Prop :=
  (∀ pr ∈ result, pr.2 < i ∧ getAt l (f pr.2) = pr.1) ∧
  (∀ t, t < i → f t < p ∧ f t < l.length) ∧
  (∀ s t, s < t → t < i → f s < f t) ∧
  List.Pairwise (fun a b : T × Nat => a.2 ≠ b.2) result ∧
  result ≠ []

/-! ### Derived facts about the comparator contract -/

namespace IsCmpPreorder

variable {cmp : T → T → Int}

theorem eq_refl (h : IsCmpPreorder cmp) (a : T) : cmp a a = 0 := by
  rcases lt_trichotomy (cmp a a) 0 with hlt | heq | hgt
  · exact absurd ((h.flip a a).mp hlt) (by omega)
  · exact heq
  · exact absurd ((h.flip a a).mpr hgt) (by omega)

theorem le_refl (h : IsCmpPreorder cmp) (a : T) : cmp a a ≤ 0 :=
  le_of_eq (h.eq_refl a)

theorem le_of_not_lt (h : IsCmpPreorder cmp) {a b : T} (hab : ¬ cmp a b < 0) :
    cmp b a ≤ 0 := by
  by_contra hc
  exact hab ((h.flip a b).mpr (by omega))

theorem lt_iff_not_le (h : IsCmpPreorder cmp) {a b : T} :
    cmp a b < 0 ↔ ¬ cmp b a ≤ 0 := by
  constructor
  · intro hab
    have := (h.flip a b).mp hab
    omega
  · intro hn
    exact (h.flip a b).mpr (by omega)

theorem lt_of_lt_of_le (h : IsCmpPreorder cmp) {a b c : T} (hab : cmp a b < 0)
    (hbc : cmp b c ≤ 0) : cmp a c < 0 := by
  rw [h.lt_iff_not_le] at hab ⊢
  intro hca
  exact hab (h.le_trans b c a hbc hca)

theorem lt_trans (h : IsCmpPreorder cmp) {a b c : T} (hab : cmp a b < 0)
    (hbc : cmp b c < 0) : cmp a c < 0 :=
  h.lt_of_lt_of_le hab (le_of_lt hbc)

theorem neg (h : IsCmpPreorder cmp) : IsCmpPreorder (fun a b => -(cmp a b)) := by
  constructor
  · intro a b
    show -(cmp a b) < 0 ↔ 0 < -(cmp b a)
    have h2 := h.flip b a
    omega
  · intro a b c hab hbc
    simp only at hab hbc ⊢
    have hba : cmp b a ≤ 0 := by
      by_contra hc
      have := (h.flip a b).mpr (by omega)
      omega
    have hcb : cmp c b ≤ 0 := by
      by_contra hc
      have := (h.flip b c).mpr (by omega)
      omega
    have hca := h.le_trans c b a hcb hba
    by_contra hc
    have := (h.flip a c).mp (by omega)
    omega

theorem eq_symm (h : IsCmpPreorder cmp) {a b : T} (hab : cmp a b = 0) :
    cmp b a = 0 := by
  rcases lt_trichotomy (cmp b a) 0 with hlt | heq | hgt
  · have := (h.flip b a).mp hlt
    omega
  · exact heq
  · have := (h.flip a b).mpr hgt
    omega

theorem eq_trans (h : IsCmpPreorder cmp) {a b c : T} (hab : cmp a b = 0)
    (hbc : cmp b c = 0) : cmp a c = 0 := by
  have h1 := h.le_trans a b c (le_of_eq hab) (le_of_eq hbc)
  have h2 := h.le_trans c b a (le_of_eq (h.eq_symm hbc)) (le_of_eq (h.eq_symm hab))
  rcases lt_trichotomy (cmp a c) 0 with hlt | heq | hgt
  · have := (h.flip a c).mp hlt
    omega
  · exact heq
  · omega

theorem le_lt_trans (h : IsCmpPreorder cmp) {a b c : T} (hab : cmp a b ≤ 0)
    (hbc : cmp b c < 0) : cmp a c < 0 := by
  rw [h.lt_iff_not_le] at hbc ⊢
  intro hca
  exact hbc (h.le_trans c a b hca hab)

end IsCmpPreorder

theorem heapCmp_def (cmp : T → T → Int) (a b : T × Nat) :
    heapCmp cmp a b =
      if cmp a.1 b.1 = 0 then (a.2 : Int) - (b.2 : Int) else cmp a.1 b.1 :=
  rfl

theorem IsCmpPreorder.heapCmp_pre {cmp : T → T → Int} (h : IsCmpPreorder cmp) :
    IsCmpPreorder (heapCmp cmp) := by
  constructor
  · intro a b
    rw [heapCmp_def, heapCmp_def]
    by_cases e1 : cmp a.1 b.1 = 0
    · rw [if_pos e1, if_pos (h.eq_symm e1)]
      omega
    · have e2 : cmp b.1 a.1 ≠ 0 := fun hc => e1 (h.eq_symm hc)
      rw [if_neg e1, if_neg e2]
      exact h.flip a.1 b.1
  · intro a b c hab hbc
    rw [heapCmp_def] at hab hbc ⊢
    by_cases e1 : cmp a.1 b.1 = 0 <;> by_cases e2 : cmp b.1 c.1 = 0
    · rw [if_pos e1] at hab
      rw [if_pos e2] at hbc
      rw [if_pos (h.eq_trans e1 e2)]
      omega
    · rw [if_neg e2] at hbc
      have hlt : cmp b.1 c.1 < 0 := by omega
      have hac : cmp a.1 c.1 < 0 := h.le_lt_trans (le_of_eq e1) hlt
      rw [if_neg (by omega)]
      omega
    · rw [if_neg e1] at hab
      have hlt : cmp a.1 b.1 < 0 := by omega
      have hac : cmp a.1 c.1 < 0 := h.lt_of_lt_of_le hlt (le_of_eq e2)
      rw [if_neg (by omega)]
      omega
    · rw [if_neg e1] at hab
      rw [if_neg e2] at hbc
      have hac : cmp a.1 c.1 < 0 :=
        h.lt_trans (show cmp a.1 b.1 < 0 by omega) (show cmp b.1 c.1 < 0 by omega)
      rw [if_neg (by omega)]
      omega

theorem keyCmp_pre (key : T → Int) : IsCmpPreorder (fun a b => key a - key b) := by
  constructor
  · intro a b
    omega
  · intro a b c hab hbc
    omega

theorem intCmp_pre : IsCmpPreorder intCmp := keyCmp_pre id

theorem fstCmp_pre : IsCmpPreorder fstCmp := keyCmp_pre Prod.fst

/-! ### List helpers for the array embedding -/

theorem getAt_cons_zero [Inhabited T] (hd : T) (t : List T) :
    getAt (hd :: t) 0 = hd :=
  rfl

theorem getAt_cons_succ [Inhabited T] (hd : T) (t : List T) (m : Nat) :
    getAt (hd :: t) (m + 1) = getAt t m :=
  rfl

theorem getAt_eq_getElem [Inhabited T] {l : List T} {i : Nat} (h : i < l.length) :
    getAt l i = l[i] :=
  List.getD_eq_getElem l default h

theorem getAt_set_self [Inhabited T] {l : List T} {i : Nat} (h : i < l.length)
    (a : T) : getAt (l.set i a) i = a := by
  rw [getAt_eq_getElem (by simpa using h)]
  exact List.getElem_set_self (by simpa using h)

theorem getAt_set_ne [Inhabited T] {l : List T} {i j : Nat} (hij : i ≠ j)
    (a : T) : getAt (l.set i a) j = getAt l j := by
  by_cases hj : j < l.length
  · rw [getAt_eq_getElem (by simpa using hj), getAt_eq_getElem hj]
    exact List.getElem_set_ne hij (by simpa using hj)
  · have hj' : l.length ≤ j := Nat.le_of_not_lt hj
    unfold getAt
    rw [List.getD_eq_getElem?_getD, List.getD_eq_getElem?_getD,
      List.getElem?_eq_none (by simpa using hj'), List.getElem?_eq_none hj']

theorem set_getAt_self [Inhabited T] {l : List T} {i : Nat} (h : i < l.length) :
    l.set i (getAt l i) = l := by
  rw [getAt_eq_getElem h]
  apply List.ext_getElem
  · simp
  · intro j h1 h2
    rw [List.getElem_set]
    split
    · simp_all
    · rfl

theorem cons_set_perm [Inhabited T] :
    ∀ (t : List T) (m : Nat) (x : T), m < t.length →
      List.Perm (getAt t m :: t.set m x) (x :: t) := by
  intro t
  induction t with
  | nil => intro m x h; simp at h
  | cons y t' ih =>
    intro m x h
    match m with
    | 0 => exact List.Perm.swap x y t'
    | Nat.succ m' =>
      have h' : m' < t'.length := by simpa using h
      have s1 : List.Perm (getAt t' m' :: y :: t'.set m' x)
          (y :: getAt t' m' :: t'.set m' x) := List.Perm.swap _ _ _
      have s2 : List.Perm (y :: getAt t' m' :: t'.set m' x) (y :: x :: t') :=
        (ih m' x h').cons y
      have s3 : List.Perm (y :: x :: t') (x :: y :: t') := List.Perm.swap _ _ _
      exact s1.trans (s2.trans s3)

theorem swap_perm [Inhabited T] :
    ∀ (l : List T) (i j : Nat), i < l.length → j < l.length →
      List.Perm ((l.set i (getAt l j)).set j (getAt l i)) l := by
  intro l
  induction l with
  | nil => intro i j hi _; simp at hi
  | cons hd t ih =>
    intro i j hi hj
    match i, j with
    | 0, 0 =>
      simp [getAt_cons_zero, List.set]
    | 0, Nat.succ m =>
      have hm : m < t.length := by simpa using hj
      exact cons_set_perm t m hd hm
    | Nat.succ k, 0 =>
      have hk : k < t.length := by simpa using hi
      exact cons_set_perm t k hd hk
    | Nat.succ k, Nat.succ m =>
      have hk : k < t.length := by simpa using hi
      have hm : m < t.length := by simpa using hj
      exact (ih k m hk hm).cons hd

/-! ### The sift-down loop: one-step case analysis -/

theorem childStep_left (k : Nat) : childStep k (2 * k + 1) :=
  Or.inl rfl

theorem childStep_right (k : Nat) : childStep k (2 * k + 2) :=
  Or.inr rfl

theorem childStep_gt {a b : Nat} (h : childStep a b) : a < b := by
  rcases h with h | h <;> omega

theorem descend_gt {a b : Nat} (h : Descend a b) : a < b := by
  induction h with
  | single hs => exact childStep_gt hs
  | tail _ hs ih => exact Nat.lt_trans ih (childStep_gt hs)

theorem descend_lb {a b : Nat} (h : Descend a b) : 2 * a + 1 ≤ b := by
  induction h with
  | single hs => rcases hs with h | h <;> omega
  | tail _ hs ih =>
    have := childStep_gt hs
    omega

theorem siftDownLoop_succ_cases [Inhabited T] (cmp : T → T → Int) (fuel : Nat)
    (l : List T) (item : T) (k n : Nat) (hk : k < n) (hitem : getAt l k = item) :
    (siftDownLoop cmp (fuel + 1) l item k n = l ∧
      (2 * k + 1 < n → ¬ cmp (getAt l (2 * k + 1)) item < 0) ∧
      (2 * k + 2 < n → ¬ cmp (getAt l (2 * k + 2)) item < 0)) ∨
    (∃ s, childStep k s ∧ s < n ∧
      siftDownLoop cmp (fuel + 1) l item k n =
        siftDownLoop cmp fuel ((l.set k (getAt l s)).set s item) item s n ∧
      ((s = 2 * k + 1 ∧ cmp (getAt l (2 * k + 1)) item < 0 ∧
          (2 * k + 2 < n → ¬ cmp (getAt l (2 * k + 2)) (getAt l (2 * k + 1)) < 0)) ∨
       (s = 2 * k + 2 ∧ cmp (getAt l (2 * k + 2)) item < 0 ∧
          ¬ cmp (getAt l (2 * k + 1)) item < 0) ∨
       (s = 2 * k + 2 ∧ cmp (getAt l (2 * k + 1)) item < 0 ∧
          cmp (getAt l (2 * k + 2)) (getAt l (2 * k + 1)) < 0))) := by
  have e2 : 2 * k + 1 + 1 = 2 * k + 2 := rfl
  by_cases c1 : 2 * k + 1 < n ∧ cmp (getAt l (2 * k + 1)) (getAt l k) < 0
  · by_cases c2 : 2 * k + 1 + 1 < n ∧
        cmp (getAt l (2 * k + 1 + 1)) (getAt l (2 * k + 1)) < 0
    · refine Or.inr ⟨2 * k + 2, childStep_right k, by omega, ?_, ?_⟩
      · simp only [siftDownLoop, if_pos hk, if_pos c1, if_pos c2]
        rw [if_neg (by omega)]
      · rw [e2] at c2
        exact Or.inr (Or.inr ⟨rfl, hitem ▸ c1.2, c2.2⟩)
    · refine Or.inr ⟨2 * k + 1, childStep_left k, c1.1, ?_, ?_⟩
      · simp only [siftDownLoop, if_pos hk, if_pos c1, if_neg c2]
        rw [if_neg (by omega)]
      · rw [e2] at c2
        refine Or.inl ⟨rfl, hitem ▸ c1.2, fun hr hc => c2 ⟨hr, hc⟩⟩
  · by_cases c2 : 2 * k + 1 + 1 < n ∧ cmp (getAt l (2 * k + 1 + 1)) (getAt l k) < 0
    · refine Or.inr ⟨2 * k + 2, childStep_right k, by omega, ?_, ?_⟩
      · simp only [siftDownLoop, if_pos hk, if_neg c1, if_pos c2]
        rw [if_neg (by omega)]
      · rw [e2] at c2
        refine Or.inr (Or.inl ⟨rfl, hitem ▸ c2.2, fun hc => c1 ⟨by omega, hitem.symm ▸ hc⟩⟩)
    · left
      refine ⟨?_, ?_, ?_⟩
      · simp only [siftDownLoop, if_pos hk, if_neg c1, if_neg c2]
        simp
      · intro hl hc
        exact c1 ⟨hl, hitem ▸ hc⟩
      · intro hr hc
        rw [e2] at c2
        exact c2 ⟨hr, hitem ▸ hc⟩

/-- Full specification of the sift-down loop, by induction on the fuel:
given that positions `≥ k+1` already satisfy the heap relation, sifting down
from `k` (with `item = heap[k]`) preserves length and multiset, touches only
position `k` and its descendants, restores the heap relation from `k` on,
and leaves at position `k` either `item` itself or the value of a direct
child of `k` that compared strictly below `item`. -/
theorem siftDownLoop_spec [Inhabited T] {cmp : T → T → Int} (hp : IsCmpPreorder cmp) :
    ∀ (fuel : Nat) (l : List T) (item : T) (k : Nat),
      getAt l k = item → k < l.length → l.length ≤ fuel + k →
      InvFrom cmp l (k + 1) →
      (siftDownLoop cmp fuel l item k l.length).length = l.length ∧
      (∀ j, j ≠ k → ¬ Descend k j →
        getAt (siftDownLoop cmp fuel l item k l.length) j = getAt l j) ∧
      List.Perm (siftDownLoop cmp fuel l item k l.length) l ∧
      InvFrom cmp (siftDownLoop cmp fuel l item k l.length) k ∧
      (getAt (siftDownLoop cmp fuel l item k l.length) k = item ∨
        ∃ c, childStep k c ∧ c < l.length ∧
          getAt (siftDownLoop cmp fuel l item k l.length) k = getAt l c ∧
          cmp (getAt l c) item < 0) := by
  intro fuel
  induction fuel with
  | zero =>
    intro l item k _ hk hfuel _
    exact absurd hk (by omega)
  | succ m ih =>
    intro l item k hitem hk hfuel hInv
    rcases siftDownLoop_succ_cases cmp m l item k l.length hk hitem with
      ⟨heq, hL, hR⟩ | ⟨s, hcs, hslt, heq, hsel⟩
    · rw [heq]
      refine ⟨rfl, fun j _ _ => rfl, List.Perm.refl l, ?_, Or.inl hitem⟩
      intro p j hkp hj hcj
      rcases Nat.eq_or_lt_of_le hkp with hpk | hpk
      · subst hpk
        rw [hitem]
        rcases hcj with hcj | hcj <;> subst hcj
        · exact hp.le_of_not_lt (hL hj)
        · exact hp.le_of_not_lt (hR hj)
      · exact hInv p j hpk hj hcj
    · have hks : k < s := childStep_gt hcs
      have hkns : k ≠ s := Nat.ne_of_lt hks
      have hsub : s ≤ 2 * k + 2 := by rcases hcs with h | h <;> omega
      -- the value moved up and the sibling bound
      have hlt_s : cmp (getAt l s) item < 0 := by
        rcases hsel with ⟨hs, hv, _⟩ | ⟨hs, hv, _⟩ | ⟨hs, hv1, hv2⟩
        · rw [hs]; exact hv
        · rw [hs]; exact hv
        · rw [hs]; exact hp.lt_trans hv2 hv1
      have hsib : ∀ j, (j = 2 * k + 1 ∨ j = 2 * k + 2) → j < l.length → j ≠ s →
          cmp (getAt l s) (getAt l j) ≤ 0 := by
        intro j hcj hj hjs
        rcases hsel with ⟨hs, _, hsb⟩ | ⟨hs, hv, hsb⟩ | ⟨hs, _, hv2⟩
        · have hj2 : j = 2 * k + 2 := by rcases hcj with h | h; · omega
                                         · exact h
          subst hj2
          rw [hs]
          exact hp.le_of_not_lt (hsb hj)
        · have hj1 : j = 2 * k + 1 := by rcases hcj with h | h; · exact h
                                         · omega
          subst hj1
          rw [hs]
          exact le_of_lt (hp.lt_of_lt_of_le hv (hp.le_of_not_lt hsb))
        · have hj1 : j = 2 * k + 1 := by rcases hcj with h | h; · exact h
                                         · omega
          subst hj1
          rw [hs]
          exact le_of_lt hv2
      -- the array after the swap
      set l' : List T := (l.set k (getAt l s)).set s item with hl'
      have hlen' : l'.length = l.length := by simp [hl']
      have hitem' : getAt l' s = item := getAt_set_self (by simpa using hslt) item
      have hk' : s < l'.length := by omega
      have hfuel' : l'.length ≤ m + s := by omega
      have hgk : getAt l' k = getAt l s := by
        rw [hl', getAt_set_ne (Ne.symm hkns), getAt_set_self hk]
      have hgother : ∀ j, j ≠ k → j ≠ s → getAt l' j = getAt l j := by
        intro j hjk hjs
        rw [hl', getAt_set_ne (fun h => hjs h.symm), getAt_set_ne (fun h => hjk h.symm)]
      have hInv' : InvFrom cmp l' (s + 1) := by
        intro p j hsp hj hcj
        have hpj : p < j := by rcases hcj with h | h <;> omega
        have hjl : j < l.length := by omega
        rw [hgother p (by omega) (by omega), hgother j (by omega) (by omega)]
        exact hInv p j (by omega) hjl hcj
      have hrec := ih l' item s hitem' hk' hfuel' hInv'
      rw [hlen'] at hrec
      obtain ⟨hrlen, hrunch, hrperm, hrinv, hrtop⟩ := hrec
      rw [heq]
      set r : List T := siftDownLoop cmp m l' item s l.length with hr
      -- value now sitting at position k
      have hrk : getAt r k = getAt l s := by
        rw [hrunch k hkns (fun hd => absurd (descend_gt hd) (by omega)), hgk]
      have hperm : List.Perm r l := by
        refine hrperm.trans ?_
        have := swap_perm l k s hk hslt
        rw [hitem] at this
        exact this
      refine ⟨hrlen, ?_, hperm, ?_, ?_⟩
      · -- positions outside k's subtree are untouched
        intro j hjk hjd
        have hjs : j ≠ s := by
          intro h
          exact hjd (h ▸ Relation.TransGen.single hcs)
        have hjds : ¬ Descend s j := by
          intro h
          exact hjd ((Relation.TransGen.single hcs).trans h)
        rw [hrunch j hjs hjds, hgother j hjk hjs]
      · -- heap relation from k on
        intro p j hkp hj hcj
        rcases Nat.lt_or_ge p s with hps | hps
        · rcases Nat.eq_or_lt_of_le hkp with hpk | hpk
          · subst hpk
            by_cases hjs : j = s
            · rw [hjs, hrk]
              rcases hrtop with htop | ⟨c, hcc, hcl, hgc, hclt⟩
              · rw [htop]
                exact le_of_lt hlt_s
              · rw [hgc]
                have hcs2 : s < c := childStep_gt hcc
                rw [hgother c (by omega) (by omega)]
                exact hInv s c (by omega) (by omega) hcc
            · have hjd : ¬ Descend s j := by
                intro hd
                have := descend_lb hd
                rcases hcj with h | h <;> omega
              rw [hrk, hrunch j hjs hjd, hgother j (by rcases hcj with h | h <;> omega) hjs]
              exact hsib j hcj (by omega) hjs
          · -- k < p < s : the edge is untouched
            have hjgt : 2 * k + 2 < j := by rcases hcj with h | h <;> omega
            have hpd : ¬ Descend s p := fun hd => absurd (descend_gt hd) (by omega)
            have hjd : ¬ Descend s j := by
              intro hd
              have := descend_lb hd
              rcases hcj with h | h <;> omega
            rw [hrunch p (by omega) hpd, hrunch j (by omega) hjd,
              hgother p (by omega) (by omega), hgother j (by omega) (by omega)]
            exact hInv p j (by omega) (by omega) hcj
        · exact hrinv p j hps hj hcj
      · exact Or.inr ⟨s, hcs, hslt, hrk, hlt_s⟩

theorem siftDownLoop_len [Inhabited T] (cmp : T → T → Int) :
    ∀ (fuel : Nat) (l : List T) (item : T) (i n : Nat),
      (siftDownLoop cmp fuel l item i n).length = l.length := by
  intro fuel
  induction fuel with
  | zero => intro l item i n; rfl
  | succ m ih =>
    intro l item i n
    simp only [siftDownLoop]
    split
    · repeat' split
      all_goals try rfl
      all_goals rw [ih]; simp
    · rfl

theorem siftDownLoop_perm [Inhabited T] (cmp : T → T → Int) :
    ∀ (fuel : Nat) (l : List T) (item : T) (i n : Nat),
      n ≤ l.length → getAt l i = item →
      List.Perm (siftDownLoop cmp fuel l item i n) l := by
  intro fuel
  induction fuel with
  | zero => intro l item i n _ _; exact List.Perm.refl l
  | succ m ih =>
    intro l item i n hn hitem
    by_cases hi : i < n
    · rcases siftDownLoop_succ_cases cmp m l item i n hi hitem with
        ⟨heq, _, _⟩ | ⟨s, hcs, hslt, heq, _⟩
      · rw [heq]
      · rw [heq]
        have hil : i < l.length := by omega
        have hsl : s < l.length := by omega
        have h1 : getAt ((l.set i (getAt l s)).set s item) s = item :=
          getAt_set_self (by simpa using hsl) item
        have h2 := ih ((l.set i (getAt l s)).set s item) item s n (by simpa using hn) h1
        refine h2.trans ?_
        have := swap_perm l i s hil hsl
        rw [hitem] at this
        exact this
    · simp only [siftDownLoop, if_neg hi]
      exact List.Perm.refl l

theorem _siftDown_len [Inhabited T] (cmp : T → T → Int) (l : List T) (i n : Nat) :
    (_siftDown cmp l i n).length = l.length :=
  siftDownLoop_len cmp n l (getAt l i) i n

theorem _siftDown_perm [Inhabited T] (cmp : T → T → Int) (l : List T) (i : Nat)
    (hn : i < l.length) : List.Perm (_siftDown cmp l i l.length) l :=
  siftDownLoop_perm cmp l.length l (getAt l i) i l.length (Nat.le_refl _) rfl

/-- `_siftDown` from index `k` with the true length: restores the heap
relation from `k` on, given it held from `k+1` on. -/
theorem _siftDown_spec [Inhabited T] {cmp : T → T → Int} (hp : IsCmpPreorder cmp)
    (l : List T) (k : Nat) (hk : k < l.length) (hInv : InvFrom cmp l (k + 1)) :
    (_siftDown cmp l k l.length).length = l.length ∧
    List.Perm (_siftDown cmp l k l.length) l ∧
    InvFrom cmp (_siftDown cmp l k l.length) k := by
  have h := siftDownLoop_spec hp l.length l (getAt l k) k rfl hk (by omega) hInv
  exact ⟨h.1, h.2.2.1, h.2.2.2.1⟩

/-! ### The sift-up loop -/

theorem getAt_append_left [Inhabited T] {data : List T} (ys : List T) {j : Nat}
    (h : j < data.length) : getAt (data ++ ys) j = getAt data j := by
  rw [getAt_eq_getElem (by simp; omega), getAt_eq_getElem h]
  exact List.getElem_append_left h

theorem getAt_concat_self [Inhabited T] (data : List T) (item : T) :
    getAt (data ++ [item]) data.length = item := by
  rw [getAt_eq_getElem (by simp)]
  simp

/-- Specification of the sift-up loop.  The hypotheses say: every edge not
involving the hole position `k` already satisfies the heap relation
(`condA`); `item` fits below the hole (`condB`); and the hole's parent is
`≤` the hole's children (`condC`, the "grandparent bridge").  The loop then
produces a full heap that is a permutation of the array with `item` written
at the hole. -/
theorem siftUpAux_spec [Inhabited T] {cmp : T → T → Int} (hp : IsCmpPreorder cmp) :
    ∀ (fuel : Nat) (l : List T) (item : T) (k : Nat),
      k < l.length → k < fuel →
      (∀ p j, j < l.length → (j = 2 * p + 1 ∨ j = 2 * p + 2) → p ≠ k → j ≠ k →
        cmp (getAt l p) (getAt l j) ≤ 0) →
      (∀ j, j < l.length → (j = 2 * k + 1 ∨ j = 2 * k + 2) →
        cmp item (getAt l j) ≤ 0) →
      (∀ p j, (k = 2 * p + 1 ∨ k = 2 * p + 2) → j < l.length →
        (j = 2 * k + 1 ∨ j = 2 * k + 2) → cmp (getAt l p) (getAt l j) ≤ 0) →
      Inv cmp (siftUpAux cmp fuel l item k) ∧
      List.Perm (siftUpAux cmp fuel l item k) (l.set k item) ∧
      (siftUpAux cmp fuel l item k).length = l.length := by
  intro fuel
  induction fuel with
  | zero =>
    intro l item k _ hf
    exact absurd hf (by omega)
  | succ m ih =>
    intro l item k hk hf condA condB condC
    by_cases hk0 : 0 < k
    · by_cases hbr : 0 ≤ cmp item (getAt l ((k - 1) / 2))
      · have heq : siftUpAux cmp (m + 1) l item k = l.set k item := by
          simp only [siftUpAux, if_pos hk0, if_pos hbr]
        rw [heq]
        refine ⟨?_, List.Perm.refl _, by simp⟩
        intro p j hj hcj
        have hj' : j < l.length := by simpa using hj
        by_cases hjk : j = k
        · have hpp : p = (k - 1) / 2 := by omega
          have hpk : p ≠ k := by omega
          rw [hjk, getAt_set_ne (fun h => hpk h.symm), getAt_set_self hk, hpp]
          exact hp.le_of_not_lt (by omega)
        · by_cases hpk : p = k
          · rw [hpk, getAt_set_self hk, getAt_set_ne (fun h => hjk h.symm)]
            exact condB j hj' (hpk ▸ hcj)
          · rw [getAt_set_ne (fun h => hpk h.symm), getAt_set_ne (fun h => hjk h.symm)]
            exact condA p j hj' hcj hpk hjk
      · have hlt : cmp item (getAt l ((k - 1) / 2)) < 0 := by omega
        have heq : siftUpAux cmp (m + 1) l item k =
            siftUpAux cmp m (l.set k (getAt l ((k - 1) / 2))) item ((k - 1) / 2) := by
          simp only [siftUpAux, if_pos hk0, if_neg hbr]
        set p0 := (k - 1) / 2 with hp0
        have hp0k : p0 < k := by omega
        have hp0ne : p0 ≠ k := by omega
        have hchild : k = 2 * p0 + 1 ∨ k = 2 * p0 + 2 := by omega
        set l' : List T := l.set k (getAt l p0) with hl'
        have hlen' : l'.length = l.length := by simp [hl']
        have hg_k : getAt l' k = getAt l p0 := getAt_set_self hk _
        have hg_other : ∀ j, j ≠ k → getAt l' j = getAt l j := by
          intro j hjk
          exact getAt_set_ne (fun h => hjk h.symm) _
        have condA' : ∀ p j, j < l'.length → (j = 2 * p + 1 ∨ j = 2 * p + 2) →
            p ≠ p0 → j ≠ p0 → cmp (getAt l' p) (getAt l' j) ≤ 0 := by
          intro p j hj hcj hpp0 hjp0
          have hj' : j < l.length := by omega
          by_cases hpk : p = k
          · have hjk : j ≠ k := by omega
            rw [hpk, hg_k, hg_other j hjk]
            exact condC p0 j hchild hj' (by omega)
          · by_cases hjk : j = k
            · exact absurd (by omega : p = p0) hpp0
            · rw [hg_other p hpk, hg_other j hjk]
              exact condA p j hj' hcj hpk hjk
        have condB' : ∀ j, j < l'.length → (j = 2 * p0 + 1 ∨ j = 2 * p0 + 2) →
            cmp item (getAt l' j) ≤ 0 := by
          intro j hj hcj
          have hj' : j < l.length := by omega
          by_cases hjk : j = k
          · rw [hjk, hg_k]
            exact le_of_lt hlt
          · rw [hg_other j hjk]
            exact hp.le_trans item (getAt l p0) (getAt l j) (le_of_lt hlt)
              (condA p0 j hj' hcj hp0ne hjk)
        have condC' : ∀ p j, (p0 = 2 * p + 1 ∨ p0 = 2 * p + 2) → j < l'.length →
            (j = 2 * p0 + 1 ∨ j = 2 * p0 + 2) → cmp (getAt l' p) (getAt l' j) ≤ 0 := by
          intro p j hpc hj hcj
          have hj' : j < l.length := by omega
          have hppk : p ≠ k := by omega
          have hp0l : p0 < l.length := by omega
          rw [hg_other p hppk]
          by_cases hjk : j = k
          · rw [hjk, hg_k]
            exact condA p p0 hp0l hpc hppk hp0ne
          · rw [hg_other j hjk]
            exact hp.le_trans (getAt l p) (getAt l p0) (getAt l j)
              (condA p p0 hp0l hpc hppk hp0ne) (condA p0 j hj' hcj hp0ne hjk)
        have hrec := ih l' item p0 (by omega) (by omega) condA' condB' condC'
        obtain ⟨hInvR, hPermR, hLenR⟩ := hrec
        rw [heq]
        refine ⟨hInvR, ?_, by omega⟩
        refine hPermR.trans ?_
        have hA1 : getAt (l.set k item) p0 = getAt l p0 :=
          getAt_set_ne (by omega) item
        have hA2 : getAt (l.set k item) k = item := getAt_set_self hk item
        have hsw := swap_perm (l.set k item) k p0 (by simpa using hk) (by simp; omega)
        rw [hA1, hA2, List.set_set] at hsw
        exact hsw
    · have hk0' : k = 0 := by omega
      subst hk0'
      have heq : siftUpAux cmp (m + 1) l item 0 = l.set 0 item := by
        simp [siftUpAux]
      rw [heq]
      refine ⟨?_, List.Perm.refl _, by simp⟩
      intro p j hj hcj
      have hj' : j < l.length := by simpa using hj
      have hjk : j ≠ 0 := by omega
      by_cases hpk : p = 0
      · rw [hpk, getAt_set_self hk, getAt_set_ne (fun h => hjk h.symm)]
        exact condB j hj' (hpk ▸ hcj)
      · rw [getAt_set_ne (fun h => hpk h.symm), getAt_set_ne (fun h => hjk h.symm)]
        exact condA p j hj' hcj hpk hjk

/-- `Heap.push` preserves the heap invariant and appends the pushed item to
the multiset. -/
theorem push_spec [Inhabited T] {cmp : T → T → Int} (hp : IsCmpPreorder cmp)
    (data : List T) (item : T) (hInv : Inv cmp data) :
    Inv cmp (Heap.push cmp data item) ∧
    List.Perm (Heap.push cmp data item) (data ++ [item]) ∧
    (Heap.push cmp data item).length = data.length + 1 := by
  have hlen : (data ++ [item]).length = data.length + 1 := by simp
  have hidx : (data ++ [item]).length - 1 = data.length := by simp
  have hgk : getAt (data ++ [item]) data.length = item := getAt_concat_self data item
  have heq : Heap.push cmp data item =
      siftUpAux cmp (data.length + 1) (data ++ [item]) item data.length := by
    show _siftUp cmp (data ++ [item]) ((data ++ [item]).length - 1) = _
    rw [hidx]
    show siftUpAux cmp (data.length + 1) (data ++ [item])
      (getAt (data ++ [item]) data.length) data.length = _
    rw [hgk]
  have hspec := siftUpAux_spec hp (data.length + 1) (data ++ [item]) item data.length
    (by simp) (by omega)
    (by
      intro p j hj hcj hpk hjk
      have hjd : j < data.length := by simp at hj; omega
      have hpd : p < data.length := by rcases hcj with h | h <;> omega
      rw [getAt_append_left [item] hjd, getAt_append_left [item] hpd]
      exact hInv p j hjd hcj)
    (by intro j hj hcj; simp at hj; omega)
    (by intro p j _ hj hcj; simp at hj; omega)
  obtain ⟨h1, h2, h3⟩ := hspec
  rw [heq]
  refine ⟨h1, ?_, by simpa using h3⟩
  have hltl : data.length < (data ++ [item]).length := by simp
  have : (data ++ [item]).set data.length item = data ++ [item] := by
    have h4 := set_getAt_self hltl
    rw [hgk] at h4
    exact h4
  rw [this] at h2
  exact h2

/-! ### heapify -/

theorem inv_iff_invFrom_zero [Inhabited T] (cmp : T → T → Int) (l : List T) :
    Inv cmp l ↔ InvFrom cmp l 0 := by
  constructor
  · intro h p j _ hj hcj
    exact h p j hj hcj
  · intro h p j hj hcj
    exact h p j (Nat.zero_le p) hj hcj

theorem heapifyFrom_len [Inhabited T] (cmp : T → T → Int) :
    ∀ (c : Nat) (l : List T), (heapifyFrom cmp c l).length = l.length := by
  intro c
  induction c with
  | zero => intro l; rfl
  | succ c ih =>
    intro l
    show (heapifyFrom cmp c (_siftDown cmp l c l.length)).length = l.length
    rw [ih, _siftDown_len]

theorem heapifyFrom_perm [Inhabited T] (cmp : T → T → Int) :
    ∀ (c : Nat) (l : List T), 2 * c ≤ l.length →
      List.Perm (heapifyFrom cmp c l) l := by
  intro c
  induction c with
  | zero => intro l _; exact List.Perm.refl l
  | succ c ih =>
    intro l hc
    have hcl : c < l.length := by omega
    have h1 := _siftDown_perm cmp l c hcl
    have h2 := ih (_siftDown cmp l c l.length)
      (by rw [_siftDown_len]; omega)
    exact h2.trans h1

theorem heapifyFrom_spec [Inhabited T] {cmp : T → T → Int} (hp : IsCmpPreorder cmp) :
    ∀ (c : Nat) (l : List T), 2 * c ≤ l.length → InvFrom cmp l c →
      Inv cmp (heapifyFrom cmp c l) := by
  intro c
  induction c with
  | zero =>
    intro l _ hInv
    exact (inv_iff_invFrom_zero cmp l).mpr hInv
  | succ c ih =>
    intro l hc hInv
    have hcl : c < l.length := by omega
    obtain ⟨hlen, _, hInv'⟩ := _siftDown_spec hp l c hcl hInv
    exact ih (_siftDown cmp l c l.length) (by omega) hInv'

theorem _heapify_len [Inhabited T] (cmp : T → T → Int) (l : List T) :
    (_heapify cmp l).length = l.length :=
  heapifyFrom_len cmp (l.length / 2) l

theorem _heapify_perm [Inhabited T] (cmp : T → T → Int) (l : List T) :
    List.Perm (_heapify cmp l) l :=
  heapifyFrom_perm cmp (l.length / 2) l (by omega)

theorem _heapify_inv [Inhabited T] {cmp : T → T → Int} (hp : IsCmpPreorder cmp)
    (l : List T) : Inv cmp (_heapify cmp l) := by
  refine heapifyFrom_spec hp (l.length / 2) l (by omega) ?_
  intro p j hp2 hj hcj
  omega

/-! ### The root is minimal; pop -/

theorem root_min [Inhabited T] {cmp : T → T → Int} (hp : IsCmpPreorder cmp)
    {l : List T} (hInv : Inv cmp l) :
    ∀ j, j < l.length → cmp (getAt l 0) (getAt l j) ≤ 0 := by
  intro j
  induction j using Nat.strong_induction_on with
  | _ j ih =>
    intro hj
    match j with
    | 0 => exact hp.le_refl (getAt l 0)
    | Nat.succ j' =>
      have hpar : j' + 1 = 2 * (j' / 2) + 1 ∨ j' + 1 = 2 * (j' / 2) + 2 := by omega
      have h1 := hInv (j' / 2) (j' + 1) hj hpar
      have h2 := ih (j' / 2) (by omega) (by omega)
      exact hp.le_trans _ _ _ h2 h1

theorem getAt_mem [Inhabited T] {l : List T} {j : Nat} (hj : j < l.length) :
    getAt l j ∈ l := by
  rw [getAt_eq_getElem hj]
  exact List.getElem_mem hj

theorem mem_exists_getAt [Inhabited T] {l : List T} {y : T} (hy : y ∈ l) :
    ∃ j, j < l.length ∧ getAt l j = y := by
  obtain ⟨j, hj, he⟩ := List.mem_iff_getElem.mp hy
  exact ⟨j, hj, by rw [getAt_eq_getElem hj]; exact he⟩

theorem root_min_mem [Inhabited T] {cmp : T → T → Int} (hp : IsCmpPreorder cmp)
    {l : List T} (hInv : Inv cmp l) {y : T} (hy : y ∈ l) :
    cmp (getAt l 0) y ≤ 0 := by
  obtain ⟨j, hj, he⟩ := mem_exists_getAt hy
  rw [← he]
  exact root_min hp hInv j hj

theorem getLastD_eq_getLast [Inhabited T] (l : List T) (h : l ≠ []) :
    l.getLastD default = l.getLast h := by
  rw [List.getLastD_eq_getLast?, List.getLast?_eq_getLast l h]
  rfl

/-- Specification of `Heap.pop` on a nonempty heap: it returns the root,
and the new state is a permutation of the tail that again satisfies the
invariant and is one element shorter. -/
theorem pop_spec [Inhabited T] {cmp : T → T → Int} (hp : IsCmpPreorder cmp)
    (l : List T) (hne : l ≠ []) (hInv : Inv cmp l) :
    (Heap.pop cmp l).1 = some (getAt l 0) ∧
    List.Perm (Heap.pop cmp l).2 l.tail ∧
    Inv cmp (Heap.pop cmp l).2 ∧
    (Heap.pop cmp l).2.length = l.length - 1 := by
  obtain ⟨x, xs, rfl⟩ : ∃ x xs, l = x :: xs := by
    cases l with
    | nil => exact absurd rfl hne
    | cons x xs => exact ⟨x, xs, rfl⟩
  by_cases hxs : xs = []
  · subst hxs
    have heq0 : Heap.pop cmp [x] = (some x, ([] : List T)) := rfl
    rw [heq0]
    refine ⟨rfl, List.Perm.refl _, ?_, rfl⟩
    intro p j hj hcj
    simp at hj
  · have hdl : (x :: xs).dropLast = x :: xs.dropLast := by
      cases xs with
      | nil => exact absurd rfl hxs
      | cons y t => rfl
    set la : T := (x :: xs).getLastD default with hla
    have hlast : la = xs.getLast hxs := by
      rw [hla, getLastD_eq_getLast (x :: xs) (by simp), List.getLast_cons hxs]
    have hie : ((x :: xs).dropLast).isEmpty = false := by
      rw [hdl]
      rfl
    set rest : List T := ((x :: xs).dropLast).set 0 la with hrest
    have hxl : 0 < xs.length := List.length_pos.mpr hxs
    have hrl : ((x :: xs).dropLast).length = xs.length := by simp
    have hrl2 : rest.length = xs.length := by
      rw [hrest, List.length_set, hrl]
    have hdleq : ((x :: xs).dropLast).length = rest.length := by omega
    have heq : Heap.pop cmp (x :: xs) =
        (some x, _siftDown cmp rest 0 rest.length) := by
      rw [← hdleq]
      simp only [Heap.pop, hie, Bool.false_eq_true, if_false]
      rfl
    have htransfer : ∀ j, 0 < j → j < rest.length → getAt rest j = getAt (x :: xs) j := by
      intro j hj0 hjl
      rw [hrest, getAt_set_ne (by omega)]
      have hjd : j < ((x :: xs).dropLast).length := by omega
      rw [getAt_eq_getElem hjd, getAt_eq_getElem (by simp at hjd ⊢; omega)]
      exact List.getElem_dropLast (x :: xs) j hjd
    have hInv1 : InvFrom cmp rest 1 := by
      intro p j hp1 hj hcj
      have hjp : p < j := by omega
      rw [htransfer p (by omega) (by omega), htransfer j (by omega) hj]
      exact hInv p j (by simp; omega) hcj
    have h0r : 0 < rest.length := by omega
    obtain ⟨hslen, hsperm, hsinv⟩ := _siftDown_spec hp rest 0 h0r hInv1
    rw [heq]
    refine ⟨rfl, ?_, ?_, ?_⟩
    · show List.Perm (_siftDown cmp rest 0 rest.length) xs
      refine hsperm.trans ?_
      have hr2 : rest = la :: xs.dropLast := by
        rw [hrest, hdl]
        rfl
      have hx2 : xs.dropLast ++ [la] = xs := by
        rw [hlast]
        exact List.dropLast_append_getLast hxs
      rw [hr2]
      exact (List.perm_append_singleton la xs.dropLast).symm.trans (List.Perm.of_eq hx2)
    · show Inv cmp (_siftDown cmp rest 0 rest.length)
      exact (inv_iff_invFrom_zero cmp _).mpr hsinv
    · show (_siftDown cmp rest 0 rest.length).length = (x :: xs).length - 1
      rw [hslen, hrl2]
      simp

theorem head_cons_tail [Inhabited T] (l : List T) (h : l ≠ []) :
    getAt l 0 :: l.tail = l := by
  cases l with
  | nil => exact absurd rfl h
  | cons x xs => rfl

theorem mem_of_mem_tail' [Inhabited T] {l : List T} {y : T} (hy : y ∈ l.tail) :
    y ∈ l := by
  cases l with
  | nil => simp at hy
  | cons x xs => exact List.mem_cons_of_mem x hy

/-- Draining a valid heap yields a sorted permutation of its contents. -/
theorem popAll_spec [Inhabited T] {cmp : T → T → Int} (hp : IsCmpPreorder cmp) :
    ∀ (n : Nat) (l : List T), l.length = n → Inv cmp l →
      List.Perm (popAll cmp l) l ∧
      List.Pairwise (fun a b => cmp a b ≤ 0) (popAll cmp l) := by
  intro n
  induction n with
  | zero =>
    intro l hl _
    have : l = [] := List.length_eq_zero.mp hl
    subst this
    exact ⟨List.Perm.refl _, List.Pairwise.nil⟩
  | succ n ih =>
    intro l hl hInv
    have hne : l ≠ [] := by
      intro h
      subst h
      simp at hl
    obtain ⟨e1, hperm1, hInv1, hlen1⟩ := pop_spec hp l hne hInv
    rcases hpe : Heap.pop cmp l with ⟨r1, l1⟩
    rw [hpe] at e1 hperm1 hInv1 hlen1
    simp only at e1 hperm1 hInv1 hlen1
    have hl1n : l1.length = n := by omega
    have hunf : popAll cmp l = getAt l 0 :: popAll cmp l1 := by
      show popAllF cmp l.length l = _
      rw [hl]
      show (match Heap.pop cmp l with
        | (none, _) => []
        | (some r, data1) => r :: popAllF cmp n data1) = _
      rw [hpe, e1]
      show getAt l 0 :: popAllF cmp n l1 = getAt l 0 :: popAllF cmp l1.length l1
      rw [hl1n]
    obtain ⟨hpermIH, hpwIH⟩ := ih l1 hl1n hInv1
    rw [hunf]
    constructor
    · have h1 : List.Perm (getAt l 0 :: popAll cmp l1) (getAt l 0 :: l.tail) :=
        (hpermIH.trans hperm1).cons (getAt l 0)
      exact h1.trans (List.Perm.of_eq (head_cons_tail l hne))
    · refine List.Pairwise.cons ?_ hpwIH
      intro y hy
      have hy1 : y ∈ l1 := hpermIH.mem_iff.mp hy
      have hy2 : y ∈ l.tail := hperm1.mem_iff.mp hy1
      exact root_min_mem hp hInv (mem_of_mem_tail' hy2)

/-- Pushing a list of items one by one onto a valid heap keeps the
invariant and appends the items to the multiset. -/
theorem foldl_push_spec [Inhabited T] {cmp : T → T → Int} (hp : IsCmpPreorder cmp) :
    ∀ (l : List T) (acc : List T), Inv cmp acc →
      Inv cmp (List.foldl (fun d x => Heap.push cmp d x) acc l) ∧
      List.Perm (List.foldl (fun d x => Heap.push cmp d x) acc l) (acc ++ l) := by
  intro l
  induction l with
  | nil =>
    intro acc hInv
    exact ⟨hInv, by simp⟩
  | cons x t ih =>
    intro acc hInv
    obtain ⟨hInvP, hPermP, _⟩ := push_spec hp acc x hInv
    obtain ⟨hInvF, hPermF⟩ := ih (Heap.push cmp acc x) hInvP
    refine ⟨hInvF, ?_⟩
    show List.Perm (List.foldl (fun d x => Heap.push cmp d x) (Heap.push cmp acc x) t) _
    refine hPermF.trans ?_
    have h1 : List.Perm (Heap.push cmp acc x ++ t) ((acc ++ [x]) ++ t) :=
      hPermP.append_right t
    refine h1.trans (List.Perm.of_eq ?_)
    simp

theorem inv_nil [Inhabited T] (cmp : T → T → Int) : Inv cmp ([] : List T) := by
  intro p j hj hcj
  simp at hj

theorem inv_singleton [Inhabited T] (cmp : T → T → Int) (x : T) :
    Inv cmp [x] := by
  intro p j hj hcj
  simp at hj
  omega

/-! ### replace / pushPop basic facts -/

theorem _replace_fst [Inhabited T] (cmp : T → T → Int) (l : List T) (item : T) :
    (_replace cmp l item).1 = l.head? := by
  cases l with
  | nil => rfl
  | cons x xs => rfl

theorem _replace_snd_perm [Inhabited T] (cmp : T → T → Int) (l : List T) (item : T) :
    List.Perm (_replace cmp l item).2 (item :: l.tail) := by
  cases l with
  | nil =>
    show List.Perm (_siftDown cmp [item] 0 [item].length) (item :: [])
    exact _siftDown_perm cmp [item] 0 (by simp)
  | cons x xs =>
    show List.Perm (_siftDown cmp (item :: xs) (0 : Nat) (item :: xs).length) (item :: xs)
    exact _siftDown_perm cmp (item :: xs) 0 (by simp)

theorem _replace_snd_len [Inhabited T] (cmp : T → T → Int) (l : List T) (item : T)
    (h : l ≠ []) : (_replace cmp l item).2.length = l.length := by
  cases l with
  | nil => exact absurd rfl h
  | cons x xs =>
    show (_siftDown cmp (item :: xs) (0 : Nat) (item :: xs).length).length = _
    rw [_siftDown_len]
    rfl

theorem invFrom_one_of_set_head [Inhabited T] {cmp : T → T → Int} {x : T}
    {xs : List T} (hInv : Inv cmp (x :: xs)) (item : T) :
    InvFrom cmp (item :: xs) 1 := by
  intro p j hp1 hj hcj
  have hpj : p < j := by omega
  have e1 : getAt (item :: xs) p = getAt (x :: xs) p := by
    match p, hp1 with
    | Nat.succ p', _ => rfl
  have e2 : getAt (item :: xs) j = getAt (x :: xs) j := by
    match j, (by omega : 1 ≤ j) with
    | Nat.succ j', _ => rfl
  rw [e1, e2]
  exact hInv p j (by simpa using hj) hcj

theorem _replace_inv [Inhabited T] {cmp : T → T → Int} (hp : IsCmpPreorder cmp)
    (l : List T) (item : T) (hInv : Inv cmp l) :
    Inv cmp (_replace cmp l item).2 := by
  cases l with
  | nil =>
    show Inv cmp (_siftDown cmp [item] 0 [item].length)
    have h := _siftDown_spec hp [item] 0 (by simp) (by intro p j hp1 hj hcj; simp at hj; omega)
    exact (inv_iff_invFrom_zero cmp _).mpr h.2.2
  | cons x xs =>
    show Inv cmp (_siftDown cmp (item :: xs) (0 : Nat) (item :: xs).length)
    have h := _siftDown_spec hp (item :: xs) 0 (by simp) (invFrom_one_of_set_head hInv item)
    exact (inv_iff_invFrom_zero cmp _).mpr h.2.2

theorem pushPop_snd_inv [Inhabited T] {cmp : T → T → Int} (hp : IsCmpPreorder cmp)
    (l : List T) (item : T) (hInv : Inv cmp l) :
    Inv cmp (Heap.pushPop cmp l item).2 := by
  by_cases hc : l.isEmpty = true ∨ cmp item (getAt l 0) < 0
  · simp only [Heap.pushPop, if_pos hc]
    exact hInv
  · simp only [Heap.pushPop, if_neg hc]
    cases l with
    | nil => simp at hc
    | cons x xs =>
      show Inv cmp (_siftDown cmp (item :: xs) (0 : Nat) (item :: xs).length)
      have h := _siftDown_spec hp (item :: xs) 0 (by simp) (invFrom_one_of_set_head hInv item)
      exact (inv_iff_invFrom_zero cmp _).mpr h.2.2

theorem stepOp_inv [Inhabited T] {cmp : T → T → Int} (hp : IsCmpPreorder cmp)
    (data : List T) (op : HeapOp T) (hInv : Inv cmp data) :
    Inv cmp (stepOp cmp data op) := by
  cases op with
  | push item => exact (push_spec hp data item hInv).1
  | pop =>
    by_cases h : data = []
    · subst h
      exact inv_nil cmp
    · exact (pop_spec hp data h hInv).2.2.1
  | replace item => exact _replace_inv hp data item hInv
  | pushPop item => exact pushPop_snd_inv hp data item hInv
  | heapify items => exact _heapify_inv hp _

theorem execOps_inv [Inhabited T] {cmp : T → T → Int} (hp : IsCmpPreorder cmp) :
    ∀ (ops : List (HeapOp T)) (data : List T), Inv cmp data →
      Inv cmp (execOps cmp data ops) := by
  intro ops
  induction ops with
  | nil => intro data hInv; exact hInv
  | cons op rest ih =>
    intro data hInv
    exact ih (stepOp cmp data op) (stepOp_inv hp data op hInv)

/-! ### Claim theorems -/

/-- C1: for every comparator that is a total preorder and every finite
sequence, building a heap from the sequence — either with the constructor's
`heapify` pass or by pushing the elements one at a time (the universal
quantification over the input list covers every insertion order of a given
multiset) — and then popping until empty returns exactly the input
multiset in non-decreasing comparator order. -/
theorem C1_pop_ordering [Inhabited T] {cmp : T → T → Int} (hp : IsCmpPreorder cmp)
    (l : List T) :
    (List.Perm (popAll cmp (_heapify cmp l)) l ∧
      List.Pairwise (fun a b => cmp a b ≤ 0) (popAll cmp (_heapify cmp l))) ∧
    (List.Perm (popAll cmp (List.foldl (fun d x => Heap.push cmp d x) [] l)) l ∧
      List.Pairwise (fun a b => cmp a b ≤ 0)
        (popAll cmp (List.foldl (fun d x => Heap.push cmp d x) [] l))) := by
  constructor
  · have hInv := _heapify_inv hp l
    obtain ⟨hperm, hpw⟩ := popAll_spec hp (_heapify cmp l).length (_heapify cmp l) rfl hInv
    exact ⟨hperm.trans (_heapify_perm cmp l), hpw⟩
  · obtain ⟨hInv, hperm⟩ := foldl_push_spec hp l [] (inv_nil cmp)
    obtain ⟨hperm2, hpw⟩ := popAll_spec hp _ _ rfl hInv
    refine ⟨hperm2.trans (hperm.trans (List.Perm.of_eq (by simp))), hpw⟩

theorem C1_pop_ordering_witness :
    (List.Perm (popAll intCmp (_heapify intCmp [4, 2, 7, 1, 9])) [4, 2, 7, 1, 9] ∧
      List.Pairwise (fun a b => intCmp a b ≤ 0) (popAll intCmp (_heapify intCmp [4, 2, 7, 1, 9]))) ∧
    (List.Perm (popAll intCmp (List.foldl (fun d x => Heap.push intCmp d x) [] [4, 2, 7, 1, 9]))
        [4, 2, 7, 1, 9] ∧
      List.Pairwise (fun a b => intCmp a b ≤ 0)
        (popAll intCmp (List.foldl (fun d x => Heap.push intCmp d x) [] [4, 2, 7, 1, 9]))) :=
  C1_pop_ordering intCmp_pre [4, 2, 7, 1, 9]

/-- C2: for every total-preorder comparator, after any finite sequence of
`push`/`pop`/`replace`/`pushPop`/`heapify` calls starting from a heap
produced by the public constructors (empty, or heapified from an arbitrary
sequence — the empty heap is `_heapify` of `[]`), the backing array
satisfies the heap invariant `compare(heap[i], heap[child]) ≤ 0` for every
in-range child. -/
theorem C2_heap_invariant [Inhabited T] {cmp : T → T → Int} (hp : IsCmpPreorder cmp)
    (init : List T) (ops : List (HeapOp T)) :
    Inv cmp (execOps cmp (_heapify cmp init) ops) :=
  execOps_inv hp ops (_heapify cmp init) (_heapify_inv hp init)

theorem C2_heap_invariant_witness :
    Inv intCmp (execOps intCmp (_heapify intCmp [5, 3, 8])
      [HeapOp.push 1, HeapOp.pop, HeapOp.pushPop 4, HeapOp.replace 2,
        HeapOp.heapify (some [0, 6]), HeapOp.pop]) :=
  C2_heap_invariant intCmp_pre [5, 3, 8]
    [HeapOp.push 1, HeapOp.pop, HeapOp.pushPop 4, HeapOp.replace 2,
      HeapOp.heapify (some [0, 6]), HeapOp.pop]

/-- C5: `pushPop(x)` on a valid heap returns `x` and leaves the heap
unchanged when the heap is empty or `x` compares strictly below the root;
otherwise it installs `x`, restores the invariant, and returns the previous
root; in every case the returned value compares `≤` every element remaining
in the heap. -/
theorem C5_pushPop [Inhabited T] {cmp : T → T → Int} (hp : IsCmpPreorder cmp)
    (l : List T) (x : T) (hInv : Inv cmp l) :
    ((l = [] ∨ cmp x (getAt l 0) < 0) → Heap.pushPop cmp l x = (some x, l)) ∧
    (l ≠ [] → ¬ cmp x (getAt l 0) < 0 →
      (Heap.pushPop cmp l x).1 = some (getAt l 0) ∧
      Inv cmp (Heap.pushPop cmp l x).2 ∧
      List.Perm (Heap.pushPop cmp l x).2 (x :: l.tail)) ∧
    (∀ r y, (Heap.pushPop cmp l x).1 = some r → y ∈ (Heap.pushPop cmp l x).2 →
      cmp r y ≤ 0) := by
  refine ⟨?_, ?_, ?_⟩
  · intro hc
    have hc' : l.isEmpty = true ∨ cmp x (getAt l 0) < 0 := by
      rcases hc with hc | hc
      · exact Or.inl (by simp [hc])
      · exact Or.inr hc
    simp only [Heap.pushPop, if_pos hc']
  · intro hne hnlt
    have hc' : ¬ (l.isEmpty = true ∨ cmp x (getAt l 0) < 0) := by
      push_neg
      exact ⟨by simpa using hne, by omega⟩
    have heq : Heap.pushPop cmp l x =
        (some (getAt l 0), _siftDown cmp (l.set 0 x) 0 l.length) := by
      simp only [Heap.pushPop, if_neg hc']
    have hInvPP := pushPop_snd_inv hp l x hInv
    rw [heq] at hInvPP
    rw [heq]
    refine ⟨rfl, hInvPP, ?_⟩
    cases l with
    | nil => exact absurd rfl hne
    | cons h0 xs =>
      show List.Perm (_siftDown cmp (x :: xs) (0 : Nat) (x :: xs).length) (x :: xs)
      exact _siftDown_perm cmp (x :: xs) 0 (by simp)
  · intro r y hr hy
    by_cases hc' : l.isEmpty = true ∨ cmp x (getAt l 0) < 0
    · simp only [Heap.pushPop, if_pos hc'] at hr hy
      have hrx : r = x := by
        simpa using hr.symm
      subst hrx
      rcases hc' with hc' | hc'
      · have : l = [] := by simpa using hc'
        subst this
        simp at hy
      · exact le_of_lt (hp.lt_of_lt_of_le hc' (root_min_mem hp hInv hy))
    · simp only [Heap.pushPop, if_neg hc'] at hr hy
      have hrr : r = getAt l 0 := by simpa using hr.symm
      subst hrr
      push_neg at hc'
      cases l with
      | nil => simp at hc'
      | cons h0 xs =>
        have hy' : y ∈ (_siftDown cmp (x :: xs) (0 : Nat) (x :: xs).length) := hy
        have hperm := _siftDown_perm cmp (x :: xs) 0 (by simp)
        have hy2 : y ∈ x :: xs := hperm.mem_iff.mp hy'
        rcases List.mem_cons.mp hy2 with hy2 | hy2
        · subst hy2
          have h2 := hc'.2
          exact hp.le_of_not_lt (by omega)
        · exact root_min_mem hp hInv (List.mem_cons_of_mem h0 hy2)

theorem C5_pushPop_witness :
    (((3 : Int) :: [5, 8] = [] ∨ intCmp 4 (getAt ((3 : Int) :: [5, 8]) 0) < 0) →
      Heap.pushPop intCmp ((3 : Int) :: [5, 8]) 4 = (some 4, (3 : Int) :: [5, 8])) ∧
    ((3 : Int) :: [5, 8] ≠ [] → ¬ intCmp 4 (getAt ((3 : Int) :: [5, 8]) 0) < 0 →
      (Heap.pushPop intCmp ((3 : Int) :: [5, 8]) 4).1 =
        some (getAt ((3 : Int) :: [5, 8]) 0) ∧
      Inv intCmp (Heap.pushPop intCmp ((3 : Int) :: [5, 8]) 4).2 ∧
      List.Perm (Heap.pushPop intCmp ((3 : Int) :: [5, 8]) 4).2
        (4 :: ((3 : Int) :: [5, 8]).tail)) ∧
    (∀ r y, (Heap.pushPop intCmp ((3 : Int) :: [5, 8]) 4).1 = some r →
      y ∈ (Heap.pushPop intCmp ((3 : Int) :: [5, 8]) 4).2 → intCmp r y ≤ 0) :=
  C5_pushPop intCmp_pre ((3 : Int) :: [5, 8]) 4
    (by
      intro p j hj hcj
      simp only [List.length_cons, List.length_nil] at hj
      have hpb : p ≤ 1 := by omega
      interval_cases p <;> interval_cases j <;> first | omega | decide)

/-- C9: `replace(x)` returns the previous root (`none` on an empty heap),
and the resulting backing array holds exactly `x` together with every
element but the old root (it installs `x` at the root and sifts down); on
an empty heap the result is exactly the one-element array `[x]`. -/
theorem C9_replace [Inhabited T] (cmp : T → T → Int) (l : List T) (x : T) :
    (Heap.replace cmp l x).1 = l.head? ∧
    List.Perm (Heap.replace cmp l x).2 (x :: l.tail) ∧
    (l ≠ [] →
      (Heap.replace cmp l x).2 = _siftDown cmp (l.set 0 x) 0 l.length) ∧
    (l = [] → Heap.replace cmp l x = (none, [x])) := by
  refine ⟨_replace_fst cmp l x, _replace_snd_perm cmp l x, ?_, ?_⟩
  · intro hne
    cases l with
    | nil => exact absurd rfl hne
    | cons h0 xs => rfl
  · intro he
    subst he
    rfl

theorem C9_replace_witness :
    (Heap.replace intCmp ([] : List Int) 7).1 = ([] : List Int).head? ∧
    List.Perm (Heap.replace intCmp ([] : List Int) 7).2 (7 :: ([] : List Int).tail) ∧
    (([] : List Int) ≠ [] →
      (Heap.replace intCmp ([] : List Int) 7).2 =
        _siftDown intCmp (([] : List Int).set 0 7) 0 ([] : List Int).length) ∧
    (([] : List Int) = [] → Heap.replace intCmp ([] : List Int) 7 = (none, [7])) :=
  C9_replace intCmp ([] : List Int) 7

/-- C8 (counterexample): the claim says the single-element queries — and it
lists `pushPop` among them — return the explicit 'no value' sentinel on an
empty heap.  But `pushPop` on an empty heap returns the pushed item itself
(`some 7`), never the sentinel. -/
theorem C8_counterexample :
    (Heap.pushPop intCmp ([] : List Int) 7).1 = some 7 ∧
    (Heap.pushPop intCmp ([] : List Int) 7).1 ≠ none := by
  exact ⟨rfl, by decide⟩

/-- C8 (amended): every operation is total over structurally empty input:
`pop`, `replace` and `peek` on an empty heap return the 'no value'
sentinel; `pushPop` on an empty heap returns the pushed item itself with
the heap unchanged (a value, not a sentinel); `nsmallest`/`nlargest` with
`n ≤ 0` or over empty input return an empty array; and `peek` with any
out-of-range index (negative or `≥ size`) returns 'no value'.  None of
these operations faults. -/
theorem C8_totality [Inhabited T] (cmp : T → T → Int) (l : List T) (x : T)
    (i : Int) (n : Int) :
    Heap.pop cmp ([] : List T) = (none, []) ∧
    (Heap.replace cmp ([] : List T) x).1 = none ∧
    Heap.pushPop cmp ([] : List T) x = (some x, []) ∧
    Heap.peek ([] : List T) i = none ∧
    ((i < 0 ∨ (l.length : Int) ≤ i) → Heap.peek l i = none) ∧
    (n ≤ 0 → _nsmallest n l cmp = [] ∧ _nlargest n l cmp = []) ∧
    _nsmallest n ([] : List T) cmp = [] ∧
    _nlargest n ([] : List T) cmp = [] := by
  refine ⟨rfl, rfl, rfl, ?_, ?_, ?_, ?_, ?_⟩
  · have hc : i < 0 ∨ (([] : List T).length : Int) ≤ i := by
      simp
      omega
    simp only [Heap.peek, if_pos hc]
  · intro hc
    simp only [Heap.peek, if_pos hc]
  · intro hn
    exact ⟨by simp only [_nsmallest, if_pos hn], by simp only [_nlargest, if_pos hn]⟩
  · by_cases hn : n ≤ 0
    · simp only [_nsmallest, if_pos hn]
    · have h0 : ((([] : List T).length : Int) ≤ n) := by simp; omega
      simp only [_nsmallest, if_neg hn, if_pos h0]
      simp [jsSort]
  · by_cases hn : n ≤ 0
    · simp only [_nlargest, if_pos hn]
    · have h0 : ((([] : List T).length : Int) ≤ n) := by simp; omega
      simp only [_nlargest, if_neg hn, if_pos h0]
      simp [jsSort]

theorem C8_totality_witness :
    Heap.pop intCmp ([] : List Int) = (none, []) ∧
    (Heap.replace intCmp ([] : List Int) 9).1 = none ∧
    Heap.pushPop intCmp ([] : List Int) 9 = (some 9, []) ∧
    Heap.peek ([] : List Int) (-2) = none ∧
    (((-2 : Int) < 0 ∨ (([3, 4] : List Int).length : Int) ≤ -2) →
      Heap.peek ([3, 4] : List Int) (-2) = none) ∧
    ((-1 : Int) ≤ 0 → _nsmallest (-1) ([3, 4] : List Int) intCmp = [] ∧
      _nlargest (-1) ([3, 4] : List Int) intCmp = []) ∧
    _nsmallest (-1) ([] : List Int) intCmp = [] ∧
    _nlargest (-1) ([] : List Int) intCmp = [] := by
  have h := C8_totality intCmp ([3, 4] : List Int) 9 (-2) (-1)
  exact h

/-- C6 (counterexample): when the pushed item compares equal to the root
but is a distinguishable value, the free-function façade
`heapq.heapPushPop` returns the item and leaves the array unchanged, while
the instance method `pushPop` installs the item and returns the old root —
different return value and different final array contents. -/
theorem C6_counterexample :
    Heapq.heapPushPop fstCmp [((0 : Int), (0 : Int))] (0, 1) =
      (some (0, 1), [((0 : Int), (0 : Int))]) ∧
    Heap.pushPop fstCmp [((0 : Int), (0 : Int))] (0, 1) =
      (some (0, 0), [((0 : Int), (1 : Int))]) ∧
    Heapq.heapPushPop fstCmp [((0 : Int), (0 : Int))] (0, 1) ≠
      Heap.pushPop fstCmp [((0 : Int), (0 : Int))] (0, 1) := by
  refine ⟨by decide, by decide, by decide⟩

/-- C6 (amended): for every total-preorder comparator, array, and item `x`
that does **not** compare equal to the current root (or with an empty
array), the free-function façade `heapq.heapPushPop` returns the same value
and leaves the same final array contents as the instance method `pushPop`;
when `x` compares equal to the root the two intentionally differ (the
façade returns `x` unchanged, the instance installs `x` and returns the old
root). -/
theorem C6_facade_pushPop [Inhabited T] {cmp : T → T → Int}
    (hp : IsCmpPreorder cmp) (arr : List T) (x : T)
    (hne : arr = [] ∨ cmp x (getAt arr 0) ≠ 0) :
    Heapq.heapPushPop cmp arr x = Heap.pushPop cmp arr x := by
  rcases hne with hemp | hne
  · subst hemp
    rfl
  · by_cases hemp2 : arr = []
    · subst hemp2
      rfl
    have hlen : 0 < arr.length := List.length_pos.mpr hemp2
    have hnemp : arr.isEmpty = false := by
      cases arr with
      | nil => simp at hlen
      | cons a t => rfl
    rcases lt_trichotomy (cmp x (getAt arr 0)) 0 with hlt | heq | hgt
    · have h1 : ¬ (0 < arr.length ∧ cmp (getAt arr 0) x < 0) := by
        intro hc
        have := (hp.flip x (getAt arr 0)).mp hlt
        omega
      have h2 : arr.isEmpty = true ∨ cmp x (getAt arr 0) < 0 := Or.inr hlt
      simp only [Heapq.heapPushPop, if_neg h1, Heap.pushPop, if_pos h2]
    · exact absurd heq hne
    · have hflip : cmp (getAt arr 0) x < 0 := (hp.flip (getAt arr 0) x).mpr hgt
      have h1 : 0 < arr.length ∧ cmp (getAt arr 0) x < 0 := ⟨hlen, hflip⟩
      have h2 : ¬ (arr.isEmpty = true ∨ cmp x (getAt arr 0) < 0) := by
        push_neg
        refine ⟨by simp [hnemp], by omega⟩
      simp only [Heapq.heapPushPop, if_pos h1, Heap.pushPop, if_neg h2]

theorem C6_facade_pushPop_witness :
    Heapq.heapPushPop intCmp ([3, 5, 8] : List Int) 4 =
      Heap.pushPop intCmp ([3, 5, 8] : List Int) 4 :=
  C6_facade_pushPop intCmp_pre ([3, 5, 8] : List Int) 4 (by decide)

/-! ### Properties of the modelled JavaScript sort -/

theorem lexLe_iff {cmp : T → T → Int} (a b : Nat × T) :
    lexLe cmp a b = true ↔
      (cmp a.2 b.2 < 0 ∨ (cmp a.2 b.2 = 0 ∧ a.1 ≤ b.1)) := by
  simp [lexLe]

theorem lexLe_trans {cmp : T → T → Int} (hp : IsCmpPreorder cmp)
    (a b c : Nat × T) (hab : lexLe cmp a b = true) (hbc : lexLe cmp b c = true) :
    lexLe cmp a c = true := by
  rw [lexLe_iff] at *
  rcases hab with hab | ⟨hab, hab2⟩ <;> rcases hbc with hbc | ⟨hbc, hbc2⟩
  · exact Or.inl (hp.lt_trans hab hbc)
  · exact Or.inl (hp.lt_of_lt_of_le hab (le_of_eq hbc))
  · exact Or.inl (hp.le_lt_trans (le_of_eq hab) hbc)
  · exact Or.inr ⟨hp.eq_trans hab hbc, Nat.le_trans hab2 hbc2⟩

theorem lexLe_total {cmp : T → T → Int} (hp : IsCmpPreorder cmp)
    (a b : Nat × T) : (lexLe cmp a b || lexLe cmp b a) = true := by
  rcases lt_trichotomy (cmp a.2 b.2) 0 with hlt | heq | hgt
  · have : lexLe cmp a b = true := (lexLe_iff a b).mpr (Or.inl hlt)
    simp [this]
  · rcases Nat.le_total a.1 b.1 with hi | hi
    · have : lexLe cmp a b = true := (lexLe_iff a b).mpr (Or.inr ⟨heq, hi⟩)
      simp [this]
    · have : lexLe cmp b a = true := (lexLe_iff b a).mpr (Or.inr ⟨hp.eq_symm heq, hi⟩)
      simp [this]
  · have : lexLe cmp b a = true :=
      (lexLe_iff b a).mpr (Or.inl ((hp.flip b.2 a.2).mpr hgt))
    simp [this]

theorem jsSort_perm (cmp : T → T → Int) (l : List T) :
    List.Perm (jsSort cmp l) l := by
  have h := List.mergeSort_perm l.enum (lexLe cmp)
  have h2 := h.map Prod.snd
  rw [List.enum_map_snd] at h2
  exact h2

theorem jsSort_pairwise {cmp : T → T → Int} (hp : IsCmpPreorder cmp) (l : List T) :
    List.Pairwise (fun a b => cmp a b ≤ 0) (jsSort cmp l) := by
  have h := List.sorted_mergeSort (lexLe_trans hp) (lexLe_total hp) l.enum
  refine List.pairwise_map.mpr (h.imp ?_)
  intro a b hab
  rw [lexLe_iff] at hab
  rcases hab with hab | ⟨hab, _⟩
  · exact le_of_lt hab
  · exact le_of_eq hab

theorem jsSort_len (cmp : T → T → Int) (l : List T) :
    (jsSort cmp l).length = l.length :=
  (jsSort_perm cmp l).length_eq

/-- The modelled JavaScript sort is the stable sort: its output reads off a
list of positions of the input that is strictly increasing on
comparator-equal elements. -/
theorem jsSort_stable [Inhabited T] {cmp : T → T → Int} (hp : IsCmpPreorder cmp)
    (l : List T) :
    ∃ ps : List Nat,
      jsSort cmp l = ps.map (fun p => getAt l p) ∧
      (∀ p ∈ ps, p < l.length) ∧
      ps.Nodup ∧
      List.Pairwise (fun p q => cmp (getAt l p) (getAt l q) ≤ 0 ∧
        (cmp (getAt l p) (getAt l q) = 0 → p < q)) ps := by
  set S : List (Nat × T) := (l.enum).mergeSort (lexLe cmp) with hS
  have hSperm : List.Perm S l.enum := List.mergeSort_perm l.enum (lexLe cmp)
  have hmemS : ∀ pr ∈ S, pr.1 < l.length ∧ pr.2 = getAt l pr.1 := by
    intro pr hpr
    have h1 : pr ∈ l.enum := hSperm.mem_iff.mp hpr
    obtain ⟨i, x⟩ := pr
    have h2 := List.mem_enum h1
    exact ⟨h2.1, by rw [getAt_eq_getElem h2.1]; exact h2.2⟩
  refine ⟨S.map Prod.fst, ?_, ?_, ?_, ?_⟩
  · show S.map Prod.snd = (S.map Prod.fst).map (fun p => getAt l p)
    rw [List.map_map]
    exact List.map_congr_left (fun pr hpr => (hmemS pr hpr).2)
  · intro p hpmem
    obtain ⟨pr, hpr, rfl⟩ := List.mem_map.mp hpmem
    exact (hmemS pr hpr).1
  · have h1 : (l.enum.map Prod.fst).Nodup := by
      rw [List.enum_map_fst]
      exact List.nodup_range l.length
    exact ((hSperm.map Prod.fst).nodup_iff).mpr h1
  · have hnd : (S.map Prod.fst).Nodup := by
      have h1 : (l.enum.map Prod.fst).Nodup := by
        rw [List.enum_map_fst]
        exact List.nodup_range l.length
      exact ((hSperm.map Prod.fst).nodup_iff).mpr h1
    have hne : List.Pairwise (fun a b : Nat × T => a.1 ≠ b.1) S :=
      List.pairwise_map.mp hnd
    have hsort := List.sorted_mergeSort (lexLe_trans hp) (lexLe_total hp) l.enum
    rw [← hS] at hsort
    have hcomb := hsort.and hne
    refine List.pairwise_map.mpr (hcomb.imp_of_mem ?_)
    intro a b ha hb hab
    obtain ⟨hab1, hab2⟩ := hab
    rw [lexLe_iff] at hab1
    have hva := (hmemS a ha).2
    have hvb := (hmemS b hb).2
    rw [← hva, ← hvb]
    rcases hab1 with h | ⟨h, hidx⟩
    · exact ⟨le_of_lt h, fun hc => absurd hc (by omega)⟩
    · exact ⟨le_of_eq h, fun _ => lt_of_le_of_ne hidx hab2⟩

/-- C7: whenever `n` is at least the number of elements, `nsmallest(n)`
returns all elements sorted ascending under the comparator and
`nlargest(n)` all elements sorted descending; the result holds exactly the
available elements — never padded, never an error. -/
theorem C7_round_trip [Inhabited T] {cmp : T → T → Int} (hp : IsCmpPreorder cmp)
    (l : List T) (n : Int) (hn : (l.length : Int) ≤ n) :
    List.Perm (_nsmallest n l cmp) l ∧
    List.Pairwise (fun a b => cmp a b ≤ 0) (_nsmallest n l cmp) ∧
    List.Perm (_nlargest n l cmp) l ∧
    List.Pairwise (fun a b => 0 ≤ cmp a b) (_nlargest n l cmp) := by
  by_cases hn0 : n ≤ 0
  · have h0 : l.length = 0 := by omega
    have hl : l = [] := List.length_eq_zero.mp h0
    subst hl
    simp only [_nsmallest, _nlargest, if_pos hn0]
    exact ⟨List.Perm.refl _, List.Pairwise.nil, List.Perm.refl _, List.Pairwise.nil⟩
  · have e1 : _nsmallest n l cmp = (jsSort cmp l).take n.toNat := by
      simp only [_nsmallest, if_neg hn0, if_pos hn]
    have e2 : _nlargest n l cmp = (jsSort (fun a b => -(cmp a b)) l).take n.toNat := by
      simp only [_nlargest, if_neg hn0, if_pos hn]
    have et1 : (jsSort cmp l).take n.toNat = jsSort cmp l :=
      List.take_of_length_le (by rw [jsSort_len]; omega)
    have et2 : (jsSort (fun a b => -(cmp a b)) l).take n.toNat =
        jsSort (fun a b => -(cmp a b)) l :=
      List.take_of_length_le (by rw [jsSort_len]; omega)
    rw [e1, e2, et1, et2]
    refine ⟨jsSort_perm cmp l, jsSort_pairwise hp l, jsSort_perm _ l, ?_⟩
    have h := jsSort_pairwise hp.neg l
    exact h.imp (by intro a b hab; simpa using hab)

theorem C7_round_trip_witness :
    List.Perm (_nsmallest 5 ([2, 1, 2] : List Int) intCmp) [2, 1, 2] ∧
    List.Pairwise (fun a b => intCmp a b ≤ 0) (_nsmallest 5 ([2, 1, 2] : List Int) intCmp) ∧
    List.Perm (_nlargest 5 ([2, 1, 2] : List Int) intCmp) [2, 1, 2] ∧
    List.Pairwise (fun a b => 0 ≤ intCmp a b) (_nlargest 5 ([2, 1, 2] : List Int) intCmp) :=
  C7_round_trip intCmp_pre ([2, 1, 2] : List Int) 5 (by decide)

/-- C10: `sort()`, `nsmallest(n)` and `nlargest(n)` leave the heap's
backing array unchanged (the method bodies never write to `this._data`:
`sort` sorts a spread copy, and the selection algorithms write only to
their fresh working arrays), and `sort()` returns an array holding all the
heap's elements in comparator order. -/
theorem C10_frame [Inhabited T] {cmp : T → T → Int} (hp : IsCmpPreorder cmp)
    (l : List T) (n : Int) :
    (Heap.sortMeth cmp l).2 = l ∧
    (Heap.nsmallestMeth cmp l n).2 = l ∧
    (Heap.nlargestMeth cmp l n).2 = l ∧
    List.Perm (Heap.sortMeth cmp l).1 l ∧
    List.Pairwise (fun a b => cmp a b ≤ 0) (Heap.sortMeth cmp l).1 :=
  ⟨rfl, rfl, rfl, jsSort_perm cmp l, jsSort_pairwise hp l⟩

theorem C10_frame_witness :
    (Heap.sortMeth intCmp ([3, 1, 2] : List Int)).2 = [3, 1, 2] ∧
    (Heap.nsmallestMeth intCmp ([3, 1, 2] : List Int) 2).2 = [3, 1, 2] ∧
    (Heap.nlargestMeth intCmp ([3, 1, 2] : List Int) 2).2 = [3, 1, 2] ∧
    List.Perm (Heap.sortMeth intCmp ([3, 1, 2] : List Int)).1 [3, 1, 2] ∧
    List.Pairwise (fun a b => intCmp a b ≤ 0) (Heap.sortMeth intCmp ([3, 1, 2] : List Int)).1 :=
  C10_frame intCmp_pre ([3, 1, 2] : List Int) 2

/-! ### Stability of the bounded-heap selection -/

theorem nsmallestScan_stable [Inhabited T] (cmp : T → T → Int) (l : List T) :
    ∀ (rem : List T) (result : List (T × Nat)) (top : T) (i p : Nat) (f : Nat → Nat),
      rem = l.drop p → p ≤ l.length → ScanInv l f result i p →
      ∃ i' f', ScanInv l f' (nsmallestScan cmp rem result top i) i' l.length := by
  intro rem
  induction rem with
  | nil =>
    intro result top i p f hrem hple hInv
    have hpl : p = l.length := by
      have h1 : l.drop p = [] := hrem.symm
      have := List.drop_eq_nil_iff.mp h1
      omega
    subst hpl
    exact ⟨i, f, hInv⟩
  | cons v rem' ih =>
    intro result top i p f hrem hple hInv
    have hplt : p < l.length := by
      by_contra h
      have hpl : p = l.length := by omega
      subst hpl
      rw [List.drop_length] at hrem
      exact List.noConfusion hrem
    have hdc := List.drop_eq_getElem_cons hplt
    rw [← getAt_eq_getElem hplt] at hdc
    rw [hdc] at hrem
    injection hrem with hv hrem2
    obtain ⟨hc1, hc2, hc3, hc4, hc5⟩ := hInv
    by_cases hacc : cmp v top < 0
    · have heq : nsmallestScan cmp (v :: rem') result top i =
          nsmallestScan cmp rem'
            ((_replace (fun a b => -(heapCmp cmp a b)) result (v, i)).2)
            ((getAt ((_replace (fun a b => -(heapCmp cmp a b)) result (v, i)).2) 0).1)
            (i + 1) := by
        simp only [nsmallestScan, if_pos hacc]
      rw [heq]
      set result1 : List (T × Nat) :=
        (_replace (fun a b => -(heapCmp cmp a b)) result (v, i)).2 with hres1
      have hperm1 : List.Perm result1 ((v, i) :: result.tail) :=
        _replace_snd_perm _ result (v, i)
      have hlen1 : result1.length = result.length :=
        _replace_snd_len _ result (v, i) hc5
      have hne1 : result1 ≠ [] := by
        intro h
        rw [h] at hlen1
        have := List.length_pos.mpr hc5
        simp at hlen1
        omega
      refine ih result1 _ (i + 1) (p + 1) (fun t => if t = i then p else f t)
        hrem2 (by omega) ⟨?_, ?_, ?_, ?_, hne1⟩
      · intro pr hpr
        have hpr2 : pr ∈ (v, i) :: result.tail := hperm1.mem_iff.mp hpr
        rcases List.mem_cons.mp hpr2 with hpr2 | hpr2
        · subst hpr2
          refine ⟨by omega, ?_⟩
          show getAt l (if i = i then p else f i) = v
          rw [if_pos rfl]
          exact hv.symm
        · have hmem : pr ∈ result := mem_of_mem_tail' hpr2
          obtain ⟨ht, hval⟩ := hc1 pr hmem
          refine ⟨by omega, ?_⟩
          show getAt l (if pr.2 = i then p else f pr.2) = pr.1
          rw [if_neg (by omega)]
          exact hval
      · intro t2 ht2
        show (if t2 = i then p else f t2) < p + 1 ∧ (if t2 = i then p else f t2) < l.length
        by_cases hti : t2 = i
        · rw [if_pos hti]
          exact ⟨by omega, hplt⟩
        · rw [if_neg hti]
          have := hc2 t2 (by omega)
          exact ⟨by omega, this.2⟩
      · intro s t2 hst hti
        show (if s = i then p else f s) < (if t2 = i then p else f t2)
        by_cases hti2 : t2 = i
        · rw [if_pos hti2, if_neg (by omega)]
          exact (hc2 s (by omega)).1
        · rw [if_neg hti2, if_neg (by omega)]
          exact hc3 s t2 hst (by omega)
      · refine (List.Perm.pairwise_iff (fun hxy => Ne.symm hxy) hperm1).mpr ?_
        refine List.Pairwise.cons ?_ (hc4.sublist (List.tail_sublist result))
        intro qr hqr
        have hqmem : qr ∈ result := mem_of_mem_tail' hqr
        have := (hc1 qr hqmem).1
        show i ≠ qr.2
        omega
    · have heq : nsmallestScan cmp (v :: rem') result top i =
          nsmallestScan cmp rem' result top i := by
        simp only [nsmallestScan, if_neg hacc]
      rw [heq]
      refine ih result top i (p + 1) f hrem2 (by omega) ⟨hc1, ?_, hc3, hc4, hc5⟩
      intro t ht
      have := hc2 t ht
      exact ⟨by omega, this.2⟩

theorem foldl_min_mem [Inhabited T] (cmp : T → T → Int) :
    ∀ (rest : List T) (v : T),
      rest.foldl (fun minv nx => if cmp nx minv < 0 then nx else minv) v ∈ v :: rest := by
  intro rest
  induction rest with
  | nil => intro v; exact List.mem_singleton_self v
  | cons x t ih =>
    intro v
    show t.foldl (fun minv nx => if cmp nx minv < 0 then nx else minv)
      (if cmp x v < 0 then x else v) ∈ v :: x :: t
    have h := ih (if cmp x v < 0 then x else v)
    rcases List.mem_cons.mp h with h | h
    · rw [h]
      split
      · exact List.mem_cons_of_mem v (List.mem_cons_self x t)
      · exact List.mem_cons_self v (x :: t)
    · exact List.mem_cons_of_mem v (List.mem_cons_of_mem x h)

/-- From the final scan state, a sorted-by-`heapCmp` readout of the held
pairs is a stable output. -/
theorem scan_readout_stable [Inhabited T] {cmp : T → T → Int} (hp : IsCmpPreorder cmp)
    (l : List T) (final : List (T × Nat)) (i' : Nat) (f' : Nat → Nat)
    (hInv : ScanInv l f' final i' l.length) :
    StableOutput cmp l ((jsSort (heapCmp cmp) final).map (fun pr => pr.1)) := by
  obtain ⟨hc1, hc2, hc3, hc4, _⟩ := hInv
  set S : List (T × Nat) := jsSort (heapCmp cmp) final with hS
  have hSperm : List.Perm S final := jsSort_perm (heapCmp cmp) final
  have hmemS : ∀ pr ∈ S, pr.2 < i' ∧ getAt l (f' pr.2) = pr.1 := by
    intro pr hpr
    exact hc1 pr (hSperm.mem_iff.mp hpr)
  have hSsort : List.Pairwise (fun a b => heapCmp cmp a b ≤ 0) S :=
    jsSort_pairwise hp.heapCmp_pre final
  have hSne : List.Pairwise (fun a b : T × Nat => a.2 ≠ b.2) S :=
    (List.Perm.pairwise_iff (fun hxy => Ne.symm hxy) hSperm).mpr hc4
  refine ⟨S.map (fun pr => f' pr.2), ?_, ?_, ?_, ?_⟩
  · rw [List.map_map]
    exact List.map_congr_left (fun pr hpr => ((hmemS pr hpr).2).symm)
  · intro p hpmem
    obtain ⟨pr, hpr, rfl⟩ := List.mem_map.mp hpmem
    exact (hc2 pr.2 (hmemS pr hpr).1).2
  · refine List.pairwise_map.mpr ((hSne.imp_of_mem ?_))
    intro a b ha hb hab
    have hta := (hmemS a ha).1
    have htb := (hmemS b hb).1
    rcases Nat.lt_or_ge a.2 b.2 with h | h
    · exact Nat.ne_of_lt (hc3 a.2 b.2 h htb)
    · have hlt : b.2 < a.2 := by omega
      exact (Nat.ne_of_lt (hc3 b.2 a.2 hlt hta)).symm
  · refine List.pairwise_map.mpr (((hSsort.and hSne).imp_of_mem ?_))
    intro a b ha hb hab
    obtain ⟨hab1, hab2⟩ := hab
    obtain ⟨hta, hva⟩ := hmemS a ha
    obtain ⟨htb, hvb⟩ := hmemS b hb
    intro hceq
    rw [hva, hvb] at hceq
    rw [heapCmp_def, if_pos hceq] at hab1
    have htlt : a.2 < b.2 := by omega
    exact hc3 a.2 b.2 htlt htb

/-- Stability of `_nsmallest` across all four of its code paths. -/
theorem _nsmallest_stable [Inhabited T] {cmp : T → T → Int} (hp : IsCmpPreorder cmp)
    (l : List T) (n : Int) : StableOutput cmp l (_nsmallest n l cmp) := by
  by_cases h1 : n ≤ 0
  · refine ⟨[], ?_, by simp, List.nodup_nil, List.Pairwise.nil⟩
    simp only [_nsmallest, if_pos h1]
    rfl
  · by_cases h2 : (l.length : Int) ≤ n
    · obtain ⟨ps, hout, hb, hnd, hpw⟩ := jsSort_stable hp l
      refine ⟨ps.take n.toNat, ?_, ?_, hnd.sublist (List.take_sublist _ _), ?_⟩
      · simp only [_nsmallest, if_neg h1, if_pos h2]
        rw [hout, List.map_take]
      · intro p hpmem
        exact hb p (List.take_subset _ _ hpmem)
      · exact (hpw.sublist (List.take_sublist _ _)).imp (fun h => h.2)
    · by_cases h3 : n = 1
      · cases l with
        | nil =>
          simp at h2
          omega
        | cons v rest =>
          have heq : _nsmallest n (v :: rest) cmp =
              [rest.foldl (fun minv nx => if cmp nx minv < 0 then nx else minv) v] := by
            simp only [_nsmallest, if_neg h1, if_neg h2, if_pos h3]
          rw [heq]
          have hmem := foldl_min_mem cmp rest v
          obtain ⟨j, hj, hje⟩ := mem_exists_getAt hmem
          exact ⟨[j], by simp [hje], by simpa using hj, List.nodup_singleton j,
            List.pairwise_singleton _ j⟩
      · have hn2 : 2 ≤ n := by omega
        have hkl : n.toNat < l.length := by omega
        have hseedlen : ((l.take n.toNat).enum.map (fun q => (q.2, q.1))).length =
            n.toNat := by
          simp
          omega
        have hseedne : ¬ ((l.take n.toNat).enum.map (fun q => (q.2, q.1))).length = 0 := by
          omega
        have heq : _nsmallest n l cmp =
            (jsSort (heapCmp cmp)
              (nsmallestScan cmp (l.drop n.toNat)
                (_heapify (fun a b => -(heapCmp cmp a b))
                  ((l.take n.toNat).enum.map (fun q => (q.2, q.1))))
                ((getAt (_heapify (fun a b => -(heapCmp cmp a b))
                  ((l.take n.toNat).enum.map (fun q => (q.2, q.1)))) 0).1)
                n.toNat)).map (fun q => q.1) := by
          simp only [_nsmallest, if_neg h1, if_neg h2, if_neg h3, if_neg hseedne]
        rw [heq]
        have hperm0 := _heapify_perm (fun a b => -(heapCmp cmp a b))
          ((l.take n.toNat).enum.map (fun q => (q.2, q.1)))
        have hlen0 := _heapify_len (fun a b => -(heapCmp cmp a b))
          ((l.take n.toNat).enum.map (fun q => (q.2, q.1)))
        have hInit : ScanInv l id
            (_heapify (fun a b => -(heapCmp cmp a b))
              ((l.take n.toNat).enum.map (fun q => (q.2, q.1)))) n.toNat n.toNat := by
          refine ⟨?_, ?_, ?_, ?_, ?_⟩
          · intro pr hpr
            have hpr2 := hperm0.mem_iff.mp hpr
            obtain ⟨q, hq, rfl⟩ := List.mem_map.mp hpr2
            obtain ⟨j, x⟩ := q
            have hjx := List.mem_enum hq
            have hjk : j < n.toNat := by
              have := hjx.1
              simp at this
              omega
            have hjl : j < l.length := by omega
            refine ⟨hjk, ?_⟩
            show getAt l j = x
            rw [getAt_eq_getElem hjl, hjx.2]
            exact (List.getElem_take l).symm
          · intro t ht
            show t < n.toNat ∧ t < l.length
            exact ⟨ht, by omega⟩
          · intro s t hst _
            show s < t
            exact hst
          · refine (List.Perm.pairwise_iff (fun hxy => Ne.symm hxy) hperm0).mpr ?_
            refine List.pairwise_map.mpr ?_
            have hnd : ((l.take n.toNat).enum.map Prod.fst).Nodup := by
              rw [List.enum_map_fst]
              exact List.nodup_range _
            exact List.pairwise_map.mp hnd
          · intro hnil
            rw [hnil] at hlen0
            simp at hlen0
            omega
        obtain ⟨i', f', hFinal⟩ := nsmallestScan_stable cmp l (l.drop n.toNat) _ _
          n.toNat n.toNat id rfl (by omega) hInit
        exact scan_readout_stable hp l _ i' f' hFinal

/-- C4: `nsmallest(n)` — both the instance method and the free function
with a key projection — is stable: among elements that compare equal under
the comparator, earlier-occurring elements of the input precede
later-occurring ones in the returned array. -/
theorem C4_nsmallest_stable [Inhabited T] {cmp : T → T → Int} (hp : IsCmpPreorder cmp)
    (l : List T) (n : Int) (key : T → Int) :
    StableOutput cmp l (Heap.nsmallestMeth cmp l n).1 ∧
    StableOutput (fun a b => key a - key b) l (Heapq.nsmallestKey n l key) :=
  ⟨_nsmallest_stable hp l n, _nsmallest_stable (keyCmp_pre key) l n⟩

theorem C4_nsmallest_stable_witness :
    StableOutput intCmp [5, 1, 4, 1, 3] (Heap.nsmallestMeth intCmp [5, 1, 4, 1, 3] 3).1 ∧
    StableOutput (fun a b => (fun x : Int => x) a - (fun x : Int => x) b) [5, 1, 4, 1, 3]
      (Heapq.nsmallestKey 3 [5, 1, 4, 1, 3] (fun x : Int => x)) :=
  C4_nsmallest_stable intCmp_pre [5, 1, 4, 1, 3] 3 (fun x : Int => x)

/-- C3 (evaluation at the failing input): `nlargest(2)` over the sequence
`[(5,a), (5,b), (1,c)]` with the value as key returns the two
comparator-equal elements with the **later**-occurring one first,
`[(5,b), (5,a)]` — both through the free function with a key projection and
through the instance method.  The claim (and the spec's stability contract)
require earlier-occurring equal elements to precede later ones, as the
`n ≥ length` branch of the very same function indeed does; the general
`1 < n < length` branch sorts the held pairs by `-(cmp || indexDiff)`,
which reverses the index tie-break. -/
theorem C3_nlargest_unstable :
    Heapq.nlargestKey 2 [((5 : Int), (0 : Int)), (5, 1), (1, 2)] (fun q => q.1) =
      [(5, 1), (5, 0)] ∧
    (Heap.nlargestMeth fstCmp [((5 : Int), (0 : Int)), (5, 1), (1, 2)] 2).1 =
      [(5, 1), (5, 0)] ∧
    _nlargest 100 [((5 : Int), (0 : Int)), (5, 1), (1, 2)] fstCmp =
      [(5, 0), (5, 1), (1, 2)] := by
  refine ⟨?_, ?_, ?_⟩
  · simp [Heapq.nlargestKey, _nlargest, jsSort, heapCmp, _heapify, heapifyFrom,
      _siftDown, siftDownLoop, nlargestScan, _replace, getAt, lexLe,
      List.mergeSort, List.merge, List.enum, List.enumFrom]
  · simp [Heap.nlargestMeth, fstCmp, _nlargest, jsSort, heapCmp, _heapify, heapifyFrom,
      _siftDown, siftDownLoop, nlargestScan, _replace, getAt, lexLe,
      List.mergeSort, List.merge, List.enum, List.enumFrom]
  · simp [fstCmp, _nlargest, jsSort, heapCmp, lexLe,
      List.mergeSort, List.merge, List.enum, List.enumFrom]

end HeapVer
